import Mathlib

/-!
The class `image::basic_bitmap` of `src/bitmap.h`: a shallow embedding and
theorems about it.

* `int32_t` values are integers; every `int32_t` operation of the source is
  followed by `wrap32`, the two's complement reduction to 32 bits.
* The free store is a list of vectors.  A `std::shared_ptr<std::vector<T>>`
  is the position of its vector in that list (or `none` for a null pointer),
  so that two handles holding the same position share their storage.
* Elements of type `T` are natural numbers; `sizeofT` is `sizeof(T)`, 4 for
  `bitmap` and 1 for `bitmap8`.
* Every operation that touches the store takes it and returns the new one.
  The result is `none` where the source throws or has no defined behaviour:
  an element access outside its vector, a null pointer dereference, a
  negative element count.
-/

namespace image

/-! ## Machine integers -/

/-- Reduction of an integer to the range of `int32_t`, two's complement. -/
def wrap32 (z : Int) : Int := (z + 2147483648) % 4294967296 - 2147483648

/-- The `int32_t` sum. -/
def add32 (a b : Int) : Int := wrap32 (a + b)

/-- The `int32_t` difference. -/
def sub32 (a b : Int) : Int := wrap32 (a - b)

/-- The `int32_t` product. -/
def mul32 (a b : Int) : Int := wrap32 (a * b)

/-- Conversion of an unsigned value to the element type `T` of `sizeofT` bytes. -/
def toT (sizeofT : Nat) (v : Nat) : Nat := v % 2 ^ (8 * sizeofT)

/-! ## The free store -/

/-- Contents of one `std::vector<T>`. -/
abbrev Vec := List Nat

/-- Every vector allocated so far; a vector is addressed by its position. -/
abbrev Heap := List Vec

/-- The call `std::make_shared<std::vector<T>>(n)` with `n` an `int32_t`: the
count is converted to `size_t`, so a negative `n` exceeds `max_size()` and the
vector constructor throws; otherwise a new vector of `n` value-initialised
elements is appended to the store and its address returned. -/
def make_shared (σ : Heap) (n : Int) : Option (Heap × Nat) :=
  if n < 0 then none else some (σ ++ [List.replicate n.toNat 0], σ.length)

/-- Read of element `i` of the vector at address `a`; the index is converted
to `size_t`, so a negative one is out of range like one past the end. -/
def load (σ : Heap) (a : Nat) (i : Int) : Option Nat :=
  if i < 0 then none
  else match σ[a]? with
    | none => none
    | some vec => vec[i.toNat]?

/-- Write of `v` to element `i` of the vector at address `a`. -/
def store (σ : Heap) (a : Nat) (i : Int) (v : Nat) : Option Heap :=
  if i < 0 then none
  else match σ[a]? with
    | none => none
    | some vec => if i.toNat < vec.length then some (σ.set a (vec.set i.toNat v)) else none

/-! ## Loops -/

/-- The values the counter of `for (int32_t i = lo; i < hi; i++)` takes, in order. -/
def forRange (lo hi : Int) : List Int :=
  List.map (fun k : Nat => lo + (k : Int)) (List.range (hi - lo).toNat)

/-- The loop `for (int32_t i = lo; i < hi; i++) body`: the body runs once per
counter value on the state left by the previous round; a round that fails
ends the loop with that failure. -/
def forLoop {S : Type} (lo hi : Int) (body : Int → S → Option S) (s : S) : Option S :=
  (forRange lo hi).foldlM (fun s i => body i s) s

/-! ## Raw memory -/

/-- Reduction of an integer to the range of `size_t` (64 bits). -/
def wrapU64 (z : Int) : Nat := (z % 18446744073709551616).toNat

/-- Read of element `i` of an array given by pointer to its first element. -/
def loadArr (px : List Nat) (i : Int) : Option Nat :=
  if i < 0 then none else px[i.toNat]?

/-- The call `std::memcpy(dst, src, nbytes)` by elements of `sizeofT` bytes:
`dst` is element `di` of the vector at address `a`, `src` is element `si` of
the array `src`.  The two do not overlap. -/
def memcpy (sizeofT : Nat) (σ : Heap) (a : Nat) (di : Int) (src : List Nat) (si : Int)
    (nbytes : Nat) : Option Heap :=
  forLoop 0 ((nbytes / sizeofT : Nat) : Int) (fun k s => do
    let v ← loadArr src (si + k)
    store s a (di + k) v) σ

/-- The element of `sizeofT` bytes each of which is `byte`. -/
def repByte (sizeofT : Nat) (byte : Nat) : Nat :=
  (List.range sizeofT).foldl (fun acc _ => acc * 256 + byte % 256) 0

/-- The call `std::memset(p, byte, nbytes)` by elements of `sizeofT` bytes,
`p` pointing to the first element of the vector at address `a`. -/
def memset (sizeofT : Nat) (σ : Heap) (a : Nat) (byte : Nat) (nbytes : Nat) : Option Heap :=
  forLoop 0 ((nbytes / sizeofT : Nat) : Int) (fun k s => store s a k (repByte sizeofT byte)) σ

/-! ## basic_bitmap -/

/-- The data members of `basic_bitmap<T>`: the shared pointer `pixels` and the
`int32_t` fields `w` and `h`. -/
structure basic_bitmap where
  pixels : Option Nat
  w : Int
  h : Int
deriving DecidableEq, Repr

namespace basic_bitmap

/-- The default constructor `basic_bitmap()`: no storage, `w = h = 0`. -/
def ctor0 : basic_bitmap := ⟨none, 0, 0⟩

/-- The constructor `basic_bitmap(int32_t width, int32_t height)`. -/
def ctor (σ : Heap) (width height : Int) : Option (Heap × basic_bitmap) := do
  let (σ1, a) ← make_shared σ (mul32 width height)
  pure (σ1, ⟨some a, width, height⟩)

/-- The expression `&(*pixels)[0]`, also the body of `data()`: the address of
the storage, which needs `pixels` to point to a vector. -/
def data (self : basic_bitmap) (σ : Heap) : Option Nat :=
  match self.pixels with
  | none => none
  | some a => if a < σ.length then some a else none

/-- The member `T operator[](const int64_t& i) const`: `(*pixels)[i]`. -/
def get (self : basic_bitmap) (σ : Heap) (i : Int) : Option Nat := do
  let a ← self.pixels
  load σ a i

/-- An assignment through `T& operator[](const int64_t& i)`: `(*pixels)[i] = v`. -/
def set (self : basic_bitmap) (σ : Heap) (i : Int) (v : Nat) : Option Heap := do
  let a ← self.pixels
  store σ a i v

/-- The member `cut(x, y, ww, hh)`: a fresh `ww` by `hh` bitmap `dest`, filled
row by row with `dest[xx + yy * ww] = p[xx + x + (yy + y) * this->w]`. -/
def cut (self : basic_bitmap) (σ : Heap) (x y ww hh : Int) : Option (Heap × basic_bitmap) := do
  let (σ1, dest) ← ctor σ ww hh
  let p ← self.data σ1
  let σ2 ← forLoop 0 hh (fun yy s =>
    forLoop 0 ww (fun xx s => do
      let v ← load s p (add32 (add32 xx x) (mul32 (add32 yy y) self.w))
      dest.set s (add32 xx (mul32 yy ww)) v) s) σ1
  pure (σ2, dest)

/-- The constructor `basic_bitmap(width, height, f)`.  The generator may have
side effects: it takes and returns a state `g` of its own, which the loops
thread through the calls in the order the source makes them. -/
def ctorFn {G : Type} (σ : Heap) (width height : Int) (f : Int → Int → G → Nat × G) (g : G) :
    Option (Heap × basic_bitmap × G) := do
  let (σ1, a) ← make_shared σ (mul32 width height)
  let self : basic_bitmap := ⟨some a, width, height⟩
  let (σ2, g2) ← forLoop 0 self.h (fun yy st =>
    forLoop 0 self.w (fun xx st => do
      let r := f xx yy st.2
      let s1 ← store st.1 a (add32 xx (mul32 self.w yy)) r.1
      pure (s1, r.2)) st) (σ1, g)
  pure (σ2, self, g2)

/-- The constructor `basic_bitmap(width, height, const std::vector<T>& data)`. -/
def ctorVec (sizeofT : Nat) (σ : Heap) (width height : Int) (data : List Nat) :
    Option (Heap × basic_bitmap) := do
  let (σ1, a) ← make_shared σ (mul32 width height)
  let σ2 ← memcpy sizeofT σ1 a 0 data 0 (wrapU64 (sizeofT * width * height))
  pure (σ2, ⟨some a, width, height⟩)

/-- The constructor `basic_bitmap(width, height, const T& color)`; `std::fill`
over the whole vector. -/
def ctorColor (σ : Heap) (width height : Int) (color : Nat) : Option (Heap × basic_bitmap) := do
  let (σ1, a) ← make_shared σ (mul32 width height)
  let vec ← σ1[a]?
  pure (σ1.set a (List.replicate vec.length color), ⟨some a, width, height⟩)

/-- The constructor `basic_bitmap(width, height, const T* px)`; `px` is the
array the pointer points to. -/
def ctorPtr (sizeofT : Nat) (σ : Heap) (width height : Int) (px : List Nat) :
    Option (Heap × basic_bitmap) := do
  let (σ1, a) ← make_shared σ (mul32 width height)
  let σ2 ← memcpy sizeofT σ1 a 0 px 0 (wrapU64 (sizeofT * width * height))
  pure (σ2, ⟨some a, width, height⟩)

/-- The constructor `basic_bitmap(width, height, n, const uint8_t* px)`; `px`
is the byte array the pointer points to, `n` is not used by the source. -/
def ctorBytes (sizeofT : Nat) (σ : Heap) (width height : Int) (_n : Int) (px : List Nat) :
    Option (Heap × basic_bitmap) := do
  let (σ1, a) ← make_shared σ (mul32 width height)
  let self : basic_bitmap := ⟨some a, width, height⟩
  let σ2 ← forLoop 0 (mul32 self.w self.h) (fun i s => do
    let b0 ← loadArr px (i * 3)
    let b1 ← loadArr px (i * 3 + 1)
    let b2 ← loadArr px (i * 3 + 2)
    store s a i (toT sizeofT (0xff000000 ||| b0 ||| (b1 <<< 8) ||| (b2 <<< 16)))) σ1
  pure (σ2, self)

/-- The member `put(x, y, bm)`.  `target` starts as `bm.data()` (the source
calls this non-const member on a const reference; it is taken as the address
of the storage of `bm`) and walks that storage; the state of the loops is the
store together with the offset `target` has reached.  The write goes to
`(*pixels)[yy * w + x]`, as in the source. -/
def put (self : basic_bitmap) (σ : Heap) (x y : Int) (bm : basic_bitmap) : Option Heap := do
  let target ← bm.data σ
  let (σ1, _) ← forLoop y (add32 bm.h y) (fun yy st =>
    forLoop x (add32 bm.w x) (fun _xx st => do
      let v ← load st.1 target st.2
      let s1 ← self.set st.1 (add32 (mul32 yy self.w) x) v
      pure (s1, st.2 + 1)) st) (σ, (0 : Int))
  pure σ1

/-- The member `clone()`: `basic_bitmap(w, h, &(*pixels)[0])`. -/
def clone (sizeofT : Nat) (self : basic_bitmap) (σ : Heap) : Option (Heap × basic_bitmap) := do
  let p ← self.data σ
  let px ← σ[p]?
  ctorPtr sizeofT σ self.w self.h px

/-- The member `clear(color)`: `memset(p, 0, w * h * sizeof(T))` when
`sizeof(T) == 1 || color == 0`, else `p[i] = color` for `i < w * h`. -/
def clear (sizeofT : Nat) (self : basic_bitmap) (σ : Heap) (color : Nat) : Option Heap := do
  let p ← self.data σ
  if sizeofT = 1 ∨ color = 0 then
    memset sizeofT σ p 0 (wrapU64 (mul32 self.w self.h * sizeofT))
  else
    forLoop 0 (mul32 self.w self.h) (fun i s => store s p i (toT sizeofT color)) σ

/-- The member `flip()`.  The source's `std::memcpy` has the storage of
`*this`, at row `h - y - 1`, as its destination and `result`, at row `y`, as
its source.  The source operand is written `&(*target)[y * w]`, which has no
meaning for a scalar `T`; it is taken as `&target[y * w]`.  Nothing writes to
`result` under any reading. -/
def flip (sizeofT : Nat) (self : basic_bitmap) (σ : Heap) : Option (Heap × basic_bitmap) := do
  let (σ1, result) ← ctor σ self.w self.h
  let target ← result.data σ1
  let l := wrap32 (wrapU64 (sizeofT * self.w))
  let σ2 ← forLoop 0 self.h (fun y s => do
    let p ← self.data s
    let src ← s[target]?
    memcpy sizeofT s p (mul32 (sub32 (sub32 self.h y) 1) self.w) src (mul32 y self.w)
      (wrapU64 l)) σ1
  pure (σ2, result)

/-- The member `width()`. -/
def width (self : basic_bitmap) : Int := self.w

/-- The member `height()`. -/
def height (self : basic_bitmap) : Int := self.h

/-- The member `size()`: the `int32_t` product `w * h`, widened to `int64_t`
on return. -/
def size (self : basic_bitmap) : Int := mul32 self.w self.h

/-- The implicitly-declared copy constructor (and copy assignment) of
`basic_bitmap`: member-wise, so the copy holds the same `pixels` pointer. -/
def copy (self : basic_bitmap) : basic_bitmap := ⟨self.pixels, self.w, self.h⟩

end basic_bitmap

/-! ## Tiling -/

/-- The data members of `const_split_iterator`; `bm` stands for the reference
to the bitmap being split. -/
structure const_split_iterator where
  bm : basic_bitmap
  width : Int
  height : Int
  xpos : Int
  ypos : Int
deriving DecidableEq, Repr

namespace const_split_iterator

/-- The member `operator!=`. -/
def ne (self other : const_split_iterator) : Bool :=
  self.xpos != other.xpos || self.ypos != other.ypos

/-- The member `operator*`: `bm.cut(xpos, ypos, width, height)`. -/
def deref (self : const_split_iterator) (σ : Heap) : Option (Heap × basic_bitmap) :=
  self.bm.cut σ self.xpos self.ypos self.width self.height

/-- The member `operator++`. -/
def inc (self : const_split_iterator) : const_split_iterator :=
  let xpos := add32 self.xpos self.width
  if xpos > sub32 self.bm.width self.width then
    let ypos := add32 self.ypos self.height
    if ypos > sub32 self.bm.height self.height then
      ⟨self.bm, self.width, self.height, -1, -1⟩
    else
      ⟨self.bm, self.width, self.height, 0, ypos⟩
  else
    ⟨self.bm, self.width, self.height, xpos, self.ypos⟩

end const_split_iterator

/-- The data members of `splitter`. -/
structure splitter where
  bm : basic_bitmap
  width : Int
  height : Int
deriving DecidableEq, Repr

/-- The member `splitter::begin()`: the cursor starts at `(0, 0)`. -/
def splitter.begin (self : splitter) : const_split_iterator :=
  ⟨self.bm, self.width, self.height, 0, 0⟩

/-- The member `splitter::end()`: the cursor `(-1, -1)`. -/
def splitter.end (self : splitter) : const_split_iterator :=
  ⟨self.bm, self.width, self.height, -1, -1⟩

/-- The member `basic_bitmap::split(w, h)`. -/
def basic_bitmap.split (self : basic_bitmap) (w h : Int) : splitter := ⟨self, w, h⟩

/-- The enumeration `for (auto it = s.begin(); it != s.end(); ++it)` that
keeps every `*it`: the tiles in the order they are produced.  `fuel` bounds
the number of comparisons; the result is `none` when it runs out, or when a
`cut` fails. -/
def enumerate : Nat → Heap → const_split_iterator → const_split_iterator →
    Option (Heap × List basic_bitmap)
  | 0, _, _, _ => none
  | fuel + 1, σ, it, e =>
    if it.ne e then do
      let (σ1, t) ← it.deref σ
      let (σ2, ts) ← enumerate fuel σ1 it.inc e
      pure (σ2, t :: ts)
    else
      some (σ, [])

/-- The tiles of `s`, from `s.begin()` to `s.end()`. -/
def splitter.tiles (self : splitter) (fuel : Nat) (σ : Heap) : Option (Heap × List basic_bitmap) :=
  enumerate fuel σ self.begin self.end

/-! ## Well-formed buffers -/

/-- A buffer of size `bm.w` by `bm.h`: both are non-negative, `pixels` points
to a vector of the store, and the length of that vector is `bm.w * bm.h`, a
product that fits `int32_t` (the constructors compute it in that type). -/
def valid (σ : Heap) (bm : basic_bitmap) : Prop :=
  0 ≤ bm.w ∧ 0 ≤ bm.h ∧ bm.w * bm.h < 2147483648 ∧
    (bm.pixels.bind (fun a => σ[a]?)).map (fun vec => (vec.length : Int)) = some (bm.w * bm.h)

instance (σ : Heap) (bm : basic_bitmap) : Decidable (valid σ bm) :=
  inferInstanceAs (Decidable (0 ≤ bm.w ∧ 0 ≤ bm.h ∧ bm.w * bm.h < 2147483648 ∧
    (bm.pixels.bind (fun a => σ[a]?)).map (fun vec => (vec.length : Int)) = some (bm.w * bm.h)))

/-! ## Auxiliary definitions: loop invariants and the tiles of the specification -/

/-- The state of the loops of `cut` after `k` cells have been copied: the store
is the initial one followed by the vector of `dest`, of which the first `k`
elements hold their final value. -/
def cutInv (σ : Heap) (src : Vec) (x y ww W : Int) (n : Int) (k : Int) (s : Heap) : Prop :=
  ∃ v : Vec, s = σ ++ [v] ∧ (v.length : Int) = n ∧
    ∀ m : Int, 0 ≤ m → m < k → loadArr v m = loadArr src (m % ww + x + (m / ww + y) * W)

/-- The value the 3-byte constructor stores for pixel `m`, when its three
bytes can be read. -/
def packedAt (sizeofT : Nat) (px : List Nat) (m : Int) : Option Nat := do
  let b0 ← loadArr px (m * 3)
  let b1 ← loadArr px (m * 3 + 1)
  let b2 ← loadArr px (m * 3 + 2)
  pure (toT sizeofT (0xff000000 ||| b0 ||| (b1 <<< 8) ||| (b2 <<< 16)))

/-- The origin of tile `k` as the specification numbers the tiles: column
`k mod nx`, row `k div nx` of the tile grid, `nx = W div tw`. -/
def tileOrigin (W tw th : Int) (k : Int) : Int × Int :=
  ((k % (W / tw)) * tw, (k / (W / tw)) * th)

/-- The cursor of the specification after `k` tiles: the origin of tile `k`
while `k` is below the tile count, then the end cursor. -/
def cursorAt (B : basic_bitmap) (tw th : Int) (k : Int) : const_split_iterator :=
  if k < (B.w / tw) * (B.h / th) then
    ⟨B, tw, th, (tileOrigin B.w tw th k).1, (tileOrigin B.w tw th k).2⟩
  else
    ⟨B, tw, th, -1, -1⟩

/-- The tiles cut one after the other at the given origins. -/
def cutEach (B : basic_bitmap) (tw th : Int) : Heap → List (Int × Int) →
    Option (Heap × List basic_bitmap)
  | σ, [] => some (σ, [])
  | σ, p :: ps => do
    let (σ1, t) ← B.cut σ p.1 p.2 tw th
    let (σ2, ts) ← cutEach B tw th σ1 ps
    pure (σ2, t :: ts)

/-- The coordinates of a `W` by `H` grid in row-major order:
`(0, 0), (1, 0), ..., (W - 1, 0), (0, 1), ..., (W - 1, H - 1)`. -/
def rowMajor (W H : Int) : List (Int × Int) :=
  (forRange 0 H).flatMap (fun y => List.map (fun x => (x, y)) (forRange 0 W))

/-- The calls `f(x, y)` made one after the other at the given coordinates, each
on the generator state the previous one left: the values returned, in order,
and the last state. -/
def runCalls {G : Type} (f : Int → Int → G → Nat × G) : G → List (Int × Int) → List Nat × G
  | g, [] => ([], g)
  | g, p :: ps =>
    ((f p.1 p.2 g).1 :: (runCalls f (f p.1 p.2 g).2 ps).1, (runCalls f (f p.1 p.2 g).2 ps).2)

/-- The state of the loops of the generator constructor once the calls at the
coordinates `done` have been made: the store is the initial one followed by
the new vector, which holds the returned values at the first `done.length`
indices, and the generator is in the state the last call left. -/
def genInv {G : Type} (σ : Heap) (f : Int → Int → G → Nat × G) (g : G) (n : Int)
    (done : List (Int × Int)) (st : Heap × G) : Prop :=
  ∃ v : Vec, st = (σ ++ [v], (runCalls f g done).2) ∧ (v.length : Int) = n ∧
    ∀ m : Nat, m < done.length → v[m]? = (runCalls f g done).1[m]?

/-- The handles of `n` bitmaps of one size whose vectors are at the addresses
`base, base + 1, ...`. -/
def tilesAt (base n : Nat) (w h : Int) : List basic_bitmap :=
  List.map (fun k : Nat => (⟨some (base + k), w, h⟩ : basic_bitmap)) (List.range n)

/-- The lengths of the vectors of the store, by address. -/
def shape (σ : Heap) : List Nat := σ.map List.length

/-- The state of the loops of `put` when `i` pixels of source row `j` and all
the rows before it have been handled.  `dvec0` and `svec0` are the vectors of
the destination and of the source before the call, `aD` is the address of the
destination's.  The store differs from the initial one in the destination's
vector only, `target` has advanced by `j * sw + i`, and in that vector the
cell `(x, y + j')` of every finished row holds the last pixel of source row
`j'`, the cell `(x, y + j)` holds the pixel handled last, and every other
element is as before. -/
def putInv (σ : Heap) (aD : Nat) (dvec0 svec0 : Vec) (W x y sw : Int) (j i : Int)
    (st : Heap × Int) : Prop :=
  ∃ dvec : Vec, st.1 = σ.set aD dvec ∧ dvec.length = dvec0.length ∧ st.2 = j * sw + i ∧
    (∀ p : Int, (0 < sw → ∀ j' : Int, 0 ≤ j' → j' < j → p ≠ (y + j') * W + x) →
      (i = 0 ∨ p ≠ (y + j) * W + x) → loadArr dvec p = loadArr dvec0 p) ∧
    (∀ j' : Int, 0 ≤ j' → j' < j → 0 < sw →
      loadArr dvec ((y + j') * W + x) = loadArr svec0 (j' * sw + sw - 1)) ∧
    (0 < i → loadArr dvec ((y + j) * W + x) = loadArr svec0 (j * sw + i - 1))

/-! ## Machine integers: lemmas -/

theorem wrap32_eq (z : Int) (h1 : -2147483648 ≤ z) (h2 : z < 2147483648) : wrap32 z = z := by
  unfold wrap32; omega

theorem add32_eq (a b : Int) (h1 : -2147483648 ≤ a + b) (h2 : a + b < 2147483648) :
    add32 a b = a + b := wrap32_eq _ h1 h2

theorem sub32_eq (a b : Int) (h1 : -2147483648 ≤ a - b) (h2 : a - b < 2147483648) :
    sub32 a b = a - b := wrap32_eq _ h1 h2

theorem mul32_eq (a b : Int) (h1 : -2147483648 ≤ a * b) (h2 : a * b < 2147483648) :
    mul32 a b = a * b := wrap32_eq _ h1 h2

/-! ## Loops: invariants -/

theorem foldlM_inv {α S : Type} (body : S → α → Option S) :
    ∀ (xs : List α) (P : Nat → S → Prop) (s : S), P 0 s →
      (∀ k (hk : k < xs.length) s, P k s → ∃ s', body s xs[k] = some s' ∧ P (k + 1) s') →
      ∃ s', xs.foldlM body s = some s' ∧ P xs.length s' := by
  intro xs
  induction xs with
  | nil => intro P s h0 _; exact ⟨s, rfl, h0⟩
  | cons x xs ih =>
    intro P s h0 hstep
    obtain ⟨s1, hb, h1⟩ := hstep 0 (by simp) s h0
    obtain ⟨s2, hf, h2⟩ := ih (fun k => P (k + 1)) s1 h1
      (fun k hk t ht => by
        have := hstep (k + 1) (by simpa using hk) t ht
        simpa using this)
    refine ⟨s2, ?_, h2⟩
    simp only [List.foldlM_cons]
    simp at hb
    rw [hb]
    exact hf

theorem forLoop_inv {S : Type} (P : Int → S → Prop) (lo hi : Int) (body : Int → S → Option S)
    (s : S) (hle : lo ≤ hi) (h0 : P lo s)
    (hstep : ∀ i s, lo ≤ i → i < hi → P i s → ∃ s', body i s = some s' ∧ P (i + 1) s') :
    ∃ s', forLoop lo hi body s = some s' ∧ P hi s' := by
  have hlen : (forRange lo hi).length = (hi - lo).toNat := by
    simp only [forRange, List.length_map, List.length_range]
  obtain ⟨s', hf, hp⟩ := foldlM_inv (fun s i => body i s) (forRange lo hi)
    (fun k => P (lo + (k : Int))) s (by simpa using h0)
    (fun k hk t ht => by
      rw [hlen] at hk
      have hk' : lo + (k : Int) < hi := by omega
      obtain ⟨t', hb, hp⟩ := hstep (lo + k) t (by omega) hk' ht
      refine ⟨t', ?_, ?_⟩
      · simp only [forRange, List.getElem_map, List.getElem_range]
        exact hb
      · have : lo + ((k + 1 : Nat) : Int) = lo + k + 1 := by push_cast; ring
        show P (lo + ((k + 1 : Nat) : Int)) t'
        rw [this]; exact hp)
  refine ⟨s', hf, ?_⟩
  rw [hlen] at hp
  have : lo + ((hi - lo).toNat : Int) = hi := by omega
  rw [this] at hp
  exact hp

/-! ## The free store: lemmas -/

theorem load_append (σ τ : Heap) (a : Nat) (i : Int) (ha : a < σ.length) :
    load (σ ++ τ) a i = load σ a i := by
  unfold load
  rw [List.getElem?_append_left ha]

theorem load_append_last (σ : Heap) (v : Vec) (i : Int) :
    load (σ ++ [v]) σ.length i = loadArr v i := by
  unfold load loadArr
  simp

theorem load_of_getElem? (σ : Heap) (a : Nat) (src : Vec) (i : Int) (h : σ[a]? = some src) :
    load σ a i = loadArr src i := by
  unfold load loadArr
  rw [h]

theorem store_append_last (σ : Heap) (v : Vec) (i : Int) (x : Nat) (h0 : 0 ≤ i)
    (h1 : i < v.length) :
    store (σ ++ [v]) σ.length i x = some (σ ++ [v.set i.toNat x]) := by
  unfold store
  have h2 : i.toNat < v.length := by omega
  have h3 : ¬ i < 0 := by omega
  simp [h2, h3]

theorem loadArr_set (v : Vec) (i m : Int) (x : Nat) (h0 : 0 ≤ i) (h1 : i < v.length) :
    loadArr (v.set i.toNat x) m = if m = i then some x else loadArr v m := by
  unfold loadArr
  by_cases hm : m < 0
  · have : m ≠ i := by omega
    simp [hm, this]
  · simp only [hm, if_false]
    by_cases hmi : m = i
    · subst hmi
      have h2 : m.toNat < v.length := by omega
      simp [h2]
    · have : i.toNat ≠ m.toNat := by omega
      simp [hmi, List.getElem?_set_ne this]

theorem loadArr_isSome (v : Vec) (i : Int) (h0 : 0 ≤ i) (h1 : i < v.length) :
    ∃ c, loadArr v i = some c := by
  unfold loadArr
  have h2 : i.toNat < v.length := by omega
  have h3 : ¬ i < 0 := by omega
  exact ⟨v[i.toNat], by simp [h3, h2]⟩

/-- What `valid` says, with the address and the vector named. -/
theorem valid_iff (σ : Heap) (bm : basic_bitmap) :
    valid σ bm ↔ 0 ≤ bm.w ∧ 0 ≤ bm.h ∧ bm.w * bm.h < 2147483648 ∧
      ∃ a vec, bm.pixels = some a ∧ σ[a]? = some vec ∧ (vec.length : Int) = bm.w * bm.h := by
  unfold valid
  constructor
  · rintro ⟨h1, h2, h3, h4⟩
    refine ⟨h1, h2, h3, ?_⟩
    cases hp : bm.pixels with
    | none => simp [hp] at h4
    | some a =>
      cases hv : σ[a]? with
      | none => simp [hp, hv] at h4
      | some vec =>
        simp [hp, hv] at h4
        exact ⟨a, vec, rfl, hv, h4⟩
  · rintro ⟨h1, h2, h3, a, vec, hp, hv, hl⟩
    refine ⟨h1, h2, h3, ?_⟩
    simp [hp, hv, hl]

/-! ## cut -/

/-- Bounds on the row-major index of a cell inside a `W` by `H` grid. -/
theorem index_bounds (W H c r : Int) (hc0 : 0 ≤ c) (hc : c < W) (hr0 : 0 ≤ r) (hr : r < H) :
    0 ≤ r * W ∧ r * W ≤ c + r * W ∧ c + r * W < W * H := by
  have h1 : 0 ≤ r * W := mul_nonneg hr0 (by omega)
  have h2 : (r + 1) * W ≤ H * W := mul_le_mul_of_nonneg_right (by omega) (by omega)
  refine ⟨h1, by omega, ?_⟩
  have h3 : (r + 1) * W = r * W + W := by ring
  have h4 : H * W = W * H := by ring
  omega

/-- A non-empty grid whose cell count fits `int32_t` has sides that fit too. -/
theorem side_bounds (W H : Int) (hW : 0 < W) (hH : 0 < H) (hWH : W * H < 2147483648) :
    W < 2147483648 ∧ H < 2147483648 := by
  have h1 : W * 1 ≤ W * H := mul_le_mul_of_nonneg_left (by omega) (by omega)
  have h2 : 1 * H ≤ W * H := mul_le_mul_of_nonneg_right (by omega) (by omega)
  omega

theorem cut_inner_step (σ : Heap) (src : Vec) (a : Nat) (x y ww hh W H : Int)
    (ha : σ[a]? = some src) (hlen : (src.length : Int) = W * H) (hWH : W * H < 2147483648)
    (hx : 0 ≤ x) (hy : 0 ≤ y) (hxw : x + ww ≤ W) (hyh : y + hh ≤ H)
    (xx yy : Int) (hxx0 : 0 ≤ xx) (hxx : xx < ww) (hyy0 : 0 ≤ yy) (hyy : yy < hh)
    (s : Heap) (hs : cutInv σ src x y ww W (ww * hh) (yy * ww + xx) s) :
    ∃ s', (do
        let v ← load s a (add32 (add32 xx x) (mul32 (add32 yy y) W))
        basic_bitmap.set ⟨some σ.length, ww, hh⟩ s (add32 xx (mul32 yy ww)) v) = some s' ∧
      cutInv σ src x y ww W (ww * hh) (yy * ww + (xx + 1)) s' := by
  obtain ⟨v, rfl, hvl, hvm⟩ := hs
  have halt : a < σ.length := by
    by_contra hcon
    rw [List.getElem?_eq_none (by omega)] at ha
    exact Option.noConfusion ha
  obtain ⟨hW, hH⟩ := side_bounds W H (by omega) (by omega) hWH
  obtain ⟨s1, s2, s3⟩ := index_bounds W H (xx + x) (yy + y) (by omega) (by omega) (by omega)
    (by omega)
  obtain ⟨d1, d2, d3⟩ := index_bounds ww hh xx yy hxx0 hxx hyy0 hyy
  have hww : ww * hh ≤ W * H :=
    mul_le_mul (by omega) (by omega) (by omega) (by omega)
  have e1 : add32 xx x = xx + x := add32_eq _ _ (by omega) (by omega)
  have e2 : add32 yy y = yy + y := add32_eq _ _ (by omega) (by omega)
  have e3 : mul32 (yy + y) W = (yy + y) * W := mul32_eq _ _ (by omega) (by omega)
  have e4 : add32 (xx + x) ((yy + y) * W) = xx + x + (yy + y) * W :=
    add32_eq _ _ (by omega) (by omega)
  have e5 : mul32 yy ww = yy * ww := mul32_eq _ _ (by omega) (by omega)
  have e6 : add32 xx (yy * ww) = xx + yy * ww := add32_eq _ _ (by omega) (by omega)
  rw [e1, e2, e3, e4, e5, e6, load_append σ [v] a _ halt, load_of_getElem? σ a src _ ha]
  obtain ⟨c, hc⟩ := loadArr_isSome src (xx + x + (yy + y) * W) (by omega) (by omega)
  rw [hc]
  refine ⟨σ ++ [v.set (xx + yy * ww).toNat c], ?_, ?_⟩
  · simp only [basic_bitmap.set, Option.bind_eq_bind, Option.some_bind]
    exact store_append_last σ v _ c (by omega) (by omega)
  · refine ⟨_, rfl, by simpa using hvl, ?_⟩
    intro m hm0 hm
    rw [loadArr_set v _ m c (by omega) (by omega)]
    by_cases hmk : m = xx + yy * ww
    · rw [if_pos hmk, ← hc, hmk, Int.add_mul_emod_self, Int.emod_eq_of_lt hxx0 hxx,
        Int.add_mul_ediv_right _ _ (by omega), Int.ediv_eq_zero_of_lt hxx0 hxx]
      congr 1
      ring
    · rw [if_neg hmk]
      exact hvm m hm0 (by omega)

/-- The result of `cut` on a valid buffer and a rectangle inside it: the store
grows by exactly one vector `v`, that of the returned bitmap, and `v` holds the
rectangle in row-major order. -/
theorem cut_spec (σ : Heap) (B : basic_bitmap) (x y ww hh : Int) (hv : valid σ B)
    (hx : 0 ≤ x) (hy : 0 ≤ y) (hw : 0 ≤ ww) (hh0 : 0 ≤ hh)
    (hxw : x + ww ≤ B.w) (hyh : y + hh ≤ B.h) :
    ∃ v : Vec, B.cut σ x y ww hh = some (σ ++ [v], ⟨some σ.length, ww, hh⟩) ∧
      (v.length : Int) = ww * hh ∧
      ∀ i j : Int, 0 ≤ i → i < ww → 0 ≤ j → j < hh →
        ∃ c, B.get σ (x + i + (y + j) * B.w) = some c ∧ loadArr v (i + j * ww) = some c := by
  obtain ⟨hW0, hH0, hWH, a, src, hp, ha, hlen⟩ := (valid_iff σ B).mp hv
  have halt : a < σ.length := by
    by_contra hcon
    rw [List.getElem?_eq_none (by omega)] at ha
    exact Option.noConfusion ha
  have hn0 : 0 ≤ ww * hh := mul_nonneg hw hh0
  have hnle : ww * hh ≤ B.w * B.h := mul_le_mul (by omega) (by omega) (by omega) (by omega)
  have hctor : basic_bitmap.ctor σ ww hh
      = some (σ ++ [List.replicate (ww * hh).toNat 0], ⟨some σ.length, ww, hh⟩) := by
    unfold basic_bitmap.ctor make_shared
    rw [mul32_eq _ _ (by omega) (by omega), if_neg (by omega)]
    rfl
  have hdata : B.data (σ ++ [List.replicate (ww * hh).toNat 0]) = some a := by
    unfold basic_bitmap.data
    rw [hp]
    simp only [List.length_append, List.length_singleton]
    rw [if_pos (by omega)]
  obtain ⟨s', hloop, v, rfl, hvl, hvm⟩ := forLoop_inv
    (fun yy s => cutInv σ src x y ww B.w (ww * hh) (yy * ww) s) 0 hh
    (fun yy s => forLoop 0 ww (fun xx s => do
      let v ← load s a (add32 (add32 xx x) (mul32 (add32 yy y) B.w))
      basic_bitmap.set ⟨some σ.length, ww, hh⟩ s (add32 xx (mul32 yy ww)) v) s)
    (σ ++ [List.replicate (ww * hh).toNat 0]) hh0
    ⟨_, rfl, by simp only [List.length_replicate]; omega, fun m h0 h1 => by omega⟩
    (fun yy s hyy0 hyy hs => by
      have := forLoop_inv (fun xx s => cutInv σ src x y ww B.w (ww * hh) (yy * ww + xx) s) 0 ww
        (fun xx s => do
          let v ← load s a (add32 (add32 xx x) (mul32 (add32 yy y) B.w))
          basic_bitmap.set ⟨some σ.length, ww, hh⟩ s (add32 xx (mul32 yy ww)) v) s hw
        (by simpa using hs)
        (fun xx s hxx0 hxx hs => cut_inner_step σ src a x y ww hh B.w B.h ha hlen hWH hx hy
          hxw hyh xx yy hxx0 hxx hyy0 hyy s hs)
      have e : (yy + 1) * ww = yy * ww + ww := by ring
      beta_reduce
      rw [e]
      exact this)
  refine ⟨v, ?_, hvl, ?_⟩
  · unfold basic_bitmap.cut
    rw [hctor]
    simp only [Option.bind_eq_bind, Option.some_bind, hdata] at hloop ⊢
    rw [hloop]
    rfl
  · intro i j hi0 hi hj0 hj
    obtain ⟨s1, s2, s3⟩ := index_bounds B.w B.h (x + i) (y + j) (by omega) (by omega) (by omega)
      (by omega)
    obtain ⟨d1, d2, d3⟩ := index_bounds ww hh i j hi0 hi hj0 hj
    obtain ⟨c, hc⟩ := loadArr_isSome src (x + i + (y + j) * B.w) (by omega) (by omega)
    refine ⟨c, ?_, ?_⟩
    · simp only [basic_bitmap.get, hp, Option.bind_eq_bind, Option.some_bind]
      rw [load_of_getElem? σ a src _ ha, hc]
    · have e : hh * ww = ww * hh := by ring
      rw [hvm (i + j * ww) (by omega) (by omega), ← hc, Int.add_mul_emod_self,
        Int.emod_eq_of_lt hi0 hi, Int.add_mul_ediv_right _ _ (by omega),
        Int.ediv_eq_zero_of_lt hi0 hi]
      congr 1
      ring

/-! ## Construction from 3-byte pixels -/

theorem forLoop_empty {S : Type} (lo : Int) (body : Int → S → Option S) (s : S) :
    forLoop lo lo body s = some s := by
  unfold forLoop forRange
  rw [Int.sub_self]
  rfl

/-- Three bytes packed under an opaque alpha byte fit 32 bits. -/
theorem pack_lt (r g b : Nat) (hr : r < 256) (hg : g < 256) (hb : b < 256) :
    0xff000000 ||| r ||| (g <<< 8) ||| (b <<< 16) < 2 ^ 32 := by
  have h1 : g <<< 8 < 2 ^ 32 := by rw [Nat.shiftLeft_eq]; omega
  have h2 : b <<< 16 < 2 ^ 32 := by rw [Nat.shiftLeft_eq]; omega
  exact Nat.or_lt_two_pow (Nat.or_lt_two_pow (Nat.or_lt_two_pow (by norm_num) (by omega)) h1) h2

/-- The 3-byte constructor on dimensions whose product fits `int32_t` and a
byte array long enough: the store grows by one vector, whose element `m` is
the packed value of pixel `m`. -/
theorem ctorBytes_spec (sizeofT : Nat) (σ : Heap) (W H n : Int) (px : List Nat)
    (hW : 0 ≤ W) (hH : 0 ≤ H) (hWH : W * H < 2147483648) (hlen : 3 * (W * H) ≤ px.length) :
    ∃ v : Vec, basic_bitmap.ctorBytes sizeofT σ W H n px
        = some (σ ++ [v], ⟨some σ.length, W, H⟩) ∧
      (v.length : Int) = W * H ∧
      ∀ m : Int, 0 ≤ m → m < W * H → ∃ c, packedAt sizeofT px m = some c ∧ loadArr v m = some c := by
  have hn0 : 0 ≤ W * H := mul_nonneg hW hH
  have hmul : mul32 W H = W * H := mul32_eq _ _ (by omega) hWH
  obtain ⟨s', hloop, v, rfl, hvl, hvm⟩ := forLoop_inv
    (fun i s => ∃ v : Vec, s = σ ++ [v] ∧ (v.length : Int) = W * H ∧
      ∀ m : Int, 0 ≤ m → m < i → ∃ c, packedAt sizeofT px m = some c ∧ loadArr v m = some c)
    0 (W * H)
    (fun i s => do
      let b0 ← loadArr px (i * 3)
      let b1 ← loadArr px (i * 3 + 1)
      let b2 ← loadArr px (i * 3 + 2)
      store s σ.length i (toT sizeofT (0xff000000 ||| b0 ||| (b1 <<< 8) ||| (b2 <<< 16))))
    (σ ++ [List.replicate (W * H).toNat 0]) hn0
    ⟨_, rfl, by simp only [List.length_replicate]; omega, fun m h0 h1 => by omega⟩
    (fun i s hi0 hi hs => by
      obtain ⟨v, rfl, hvl, hvm⟩ := hs
      obtain ⟨b0, h0⟩ := loadArr_isSome px (i * 3) (by omega) (by omega)
      obtain ⟨b1, h1⟩ := loadArr_isSome px (i * 3 + 1) (by omega) (by omega)
      obtain ⟨b2, h2⟩ := loadArr_isSome px (i * 3 + 2) (by omega) (by omega)
      refine ⟨σ ++ [v.set i.toNat (toT sizeofT (0xff000000 ||| b0 ||| (b1 <<< 8) ||| (b2 <<< 16)))],
        ?_, _, rfl, by simpa using hvl, ?_⟩
      · simp only [h0, h1, h2, Option.bind_eq_bind, Option.some_bind]
        exact store_append_last σ v i _ hi0 (by omega)
      · intro m hm0 hm
        rw [loadArr_set v i m _ hi0 (by omega)]
        by_cases hmi : m = i
        · subst hmi
          refine ⟨_, ?_, if_pos rfl⟩
          simp only [packedAt, h0, h1, h2, Option.bind_eq_bind, Option.some_bind]
          rfl
        · rw [if_neg hmi]
          exact hvm m hm0 (by omega))
  refine ⟨v, ?_, hvl, hvm⟩
  unfold basic_bitmap.ctorBytes make_shared
  rw [hmul, if_neg (by omega)]
  simp only [Option.bind_eq_bind, Option.some_bind] at hloop ⊢
  rw [hmul, hloop]
  rfl

/-- The 3-byte constructor on a 65536 by 65536 request, whatever the bytes: the
`int32_t` product `width * height` is 0, so the vector is empty and the loop
does not run. -/
theorem ctorBytes_65536 (sizeofT : Nat) (σ : Heap) (n : Int) (px : List Nat) :
    basic_bitmap.ctorBytes sizeofT σ 65536 65536 n px
      = some (σ ++ [[]], ⟨some σ.length, 65536, 65536⟩) := by
  have hmul : mul32 65536 65536 = 0 := by decide
  unfold basic_bitmap.ctorBytes make_shared
  simp only [hmul, Option.bind_eq_bind, Option.some_bind, forLoop_empty]
  rfl

/-! ## Tiling: the cursor -/

/-- Division with remainder by a positive tile side. -/
theorem tile_count_bounds (W tw : Int) (htw : 0 < tw) (htwW : tw ≤ W) :
    1 ≤ W / tw ∧ W / tw * tw ≤ W ∧ W < W / tw * tw + tw := by
  have h1 : 1 ≤ W / tw := (Int.le_ediv_iff_mul_le htw).mpr (by omega)
  have h2 := Int.ediv_mul_le W (by omega : tw ≠ 0)
  have h3 := Int.lt_mul_ediv_self_add (x := W) htw
  have h4 : tw * (W / tw) = W / tw * tw := by ring
  exact ⟨h1, h2, by omega⟩

/-- Column and row of tile `k` in a grid of `nx` columns and `ny` rows. -/
theorem grid_coords (nx ny k : Int) (hnx : 0 < nx) (hk0 : 0 ≤ k) (hk : k < nx * ny) :
    0 ≤ k % nx ∧ k % nx < nx ∧ 0 ≤ k / nx ∧ k / nx < ny ∧ k = k / nx * nx + k % nx := by
  refine ⟨Int.emod_nonneg _ (by omega), Int.emod_lt_of_pos _ hnx,
    Int.ediv_nonneg hk0 (by omega), ?_, (Int.ediv_add_emod' k nx).symm⟩
  rw [Int.ediv_lt_iff_lt_mul hnx]
  have : ny * nx = nx * ny := by ring
  omega

/-- A product of two bounded non-negative factors. -/
theorem mul_le_of_le (a b c : Int) (hab : a ≤ b) (hc : 0 ≤ c) : a * c ≤ b * c :=
  mul_le_mul_of_nonneg_right hab hc

theorem origin_bounds (W H tw th k : Int) (htw : 0 < tw) (htwW : tw ≤ W) (hth : 0 < th)
    (hthH : th ≤ H) (hk0 : 0 ≤ k) (hk : k < (W / tw) * (H / th)) :
    0 ≤ (tileOrigin W tw th k).1 ∧ (tileOrigin W tw th k).1 + tw ≤ W ∧
    0 ≤ (tileOrigin W tw th k).2 ∧ (tileOrigin W tw th k).2 + th ≤ H := by
  obtain ⟨x1, x2, x3⟩ := tile_count_bounds W tw htw htwW
  obtain ⟨y1, y2, y3⟩ := tile_count_bounds H th hth hthH
  obtain ⟨c0, c1, r0, r1, _⟩ := grid_coords (W / tw) (H / th) k (by omega) hk0 hk
  have a1 : 0 ≤ k % (W / tw) * tw := mul_nonneg c0 (by omega)
  have a2 : (k % (W / tw) + 1) * tw ≤ W / tw * tw := mul_le_of_le _ _ _ (by omega) (by omega)
  have a3 : (k % (W / tw) + 1) * tw = k % (W / tw) * tw + tw := by ring
  have b1 : 0 ≤ k / (W / tw) * th := mul_nonneg r0 (by omega)
  have b2 : (k / (W / tw) + 1) * th ≤ H / th * th := mul_le_of_le _ _ _ (by omega) (by omega)
  have b3 : (k / (W / tw) + 1) * th = k / (W / tw) * th + th := by ring
  simp only [tileOrigin]
  omega

theorem divmod_unique (nx q c m : Int) (h : m = c + q * nx) (hc0 : 0 ≤ c) (hc : c < nx) :
    m / nx = q ∧ m % nx = c := by
  subst h
  constructor
  · rw [Int.add_mul_ediv_right _ _ (by omega), Int.ediv_eq_zero_of_lt hc0 hc, zero_add]
  · rw [Int.add_mul_emod_self, Int.emod_eq_of_lt hc0 hc]

/-- One `operator++` takes the cursor of tile `k` to that of tile `k + 1`, or
to the end cursor after the last tile. -/
theorem inc_cursorAt (B : basic_bitmap) (tw th k : Int) (hW : B.w < 2147483648)
    (hH : B.h < 2147483648) (htw : 0 < tw) (htwW : tw ≤ B.w) (hth : 0 < th) (hthH : th ≤ B.h)
    (hk0 : 0 ≤ k) (hk : k < (B.w / tw) * (B.h / th)) :
    (cursorAt B tw th k).inc = cursorAt B tw th (k + 1) := by
  obtain ⟨x1, x2, x3⟩ := tile_count_bounds B.w tw htw htwW
  obtain ⟨y1, y2, y3⟩ := tile_count_bounds B.h th hth hthH
  obtain ⟨c0, c1, r0, r1, hkk⟩ := grid_coords (B.w / tw) (B.h / th) k (by omega) hk0 hk
  generalize hnx : B.w / tw = nx at *
  generalize hny : B.h / th = ny at *
  generalize hc : k % nx = c at *
  generalize hr : k / nx = r at *
  have a1 : 0 ≤ c * tw := mul_nonneg c0 (by omega)
  have a2 : (c + 1) * tw ≤ nx * tw := mul_le_of_le _ _ _ (by omega) (by omega)
  have a3 : (c + 1) * tw = c * tw + tw := by ring
  have b1 : 0 ≤ r * th := mul_nonneg r0 (by omega)
  have b2 : (r + 1) * th ≤ ny * th := mul_le_of_le _ _ _ (by omega) (by omega)
  have b3 : (r + 1) * th = r * th + th := by ring
  have n1 : (r + 1) * nx ≤ ny * nx := mul_le_of_le _ _ _ (by omega) (by omega)
  have n2 : (r + 1) * nx = r * nx + nx := by ring
  have n3 : ny * nx = nx * ny := by ring
  have e1 : add32 (c * tw) tw = c * tw + tw := add32_eq _ _ (by omega) (by omega)
  have e2 : sub32 B.w tw = B.w - tw := sub32_eq _ _ (by omega) (by omega)
  have e3 : add32 (r * th) th = r * th + th := add32_eq _ _ (by omega) (by omega)
  have e4 : sub32 B.h th = B.h - th := sub32_eq _ _ (by omega) (by omega)
  have lhs : (cursorAt B tw th k) = ⟨B, tw, th, c * tw, r * th⟩ := by
    unfold cursorAt tileOrigin
    rw [hnx, hny, if_pos hk, hc, hr]
  rw [lhs]
  unfold const_split_iterator.inc
  simp only [basic_bitmap.width, basic_bitmap.height, e1, e2, e3, e4]
  by_cases hc1 : c + 1 < nx
  · -- the next tile is in the same row
    have a4 : (c + 2) * tw ≤ nx * tw := mul_le_of_le _ _ _ (by omega) (by omega)
    have a5 : (c + 2) * tw = c * tw + tw + tw := by ring
    obtain ⟨d1, d2⟩ := divmod_unique nx r (c + 1) (k + 1) (by omega) (by omega) hc1
    have hk1 : k + 1 < nx * ny := by omega
    rw [if_neg (by omega)]
    unfold cursorAt tileOrigin
    rw [hnx, hny, if_pos hk1, d1, d2, a3]
  · have hcn : c + 1 = nx := by omega
    have a6 : nx * tw = c * tw + tw := by rw [← hcn]; ring
    rw [if_pos (by omega)]
    by_cases hr1 : r + 1 < ny
    · -- the next tile starts the next row
      have b4 : (r + 2) * th ≤ ny * th := mul_le_of_le _ _ _ (by omega) (by omega)
      have b5 : (r + 2) * th = r * th + th + th := by ring
      have n4 : (r + 2) * nx ≤ ny * nx := mul_le_of_le _ _ _ (by omega) (by omega)
      have n5 : (r + 2) * nx = r * nx + nx + nx := by ring
      obtain ⟨d1, d2⟩ := divmod_unique nx (r + 1) 0 (k + 1) (by omega) (by omega) (by omega)
      have hk1 : k + 1 < nx * ny := by omega
      rw [if_neg (by omega)]
      unfold cursorAt tileOrigin
      rw [hnx, hny, if_pos hk1, d1, d2, b3, zero_mul]
    · -- that was the last tile
      have hrn : r + 1 = ny := by omega
      have b6 : ny * th = r * th + th := by rw [← hrn]; ring
      have hk1 : ¬ k + 1 < nx * ny := by
        have n6 : nx * ny = r * nx + nx := by rw [← hrn]; ring
        omega
      rw [if_pos (by omega)]
      unfold cursorAt
      rw [hnx, hny, if_neg hk1]

/-- The enumeration started at the cursor of tile `k` cuts the tiles
`k, k + 1, ...` in turn, up to the last one. -/
theorem enumerate_eq_cutEach (B : basic_bitmap) (tw th : Int) (hW : B.w < 2147483648)
    (hH : B.h < 2147483648) (htw : 0 < tw) (htwW : tw ≤ B.w) (hth : 0 < th) (hthH : th ≤ B.h) :
    ∀ (m : Nat) (k : Int) (fuel : Nat) (σ : Heap), 0 ≤ k →
      k + m = (B.w / tw) * (B.h / th) → m < fuel →
      enumerate fuel σ (cursorAt B tw th k) ⟨B, tw, th, -1, -1⟩
        = cutEach B tw th σ
            (List.map (fun i : Nat => tileOrigin B.w tw th (k + (i : Int))) (List.range m)) := by
  intro m
  induction m with
  | zero =>
    intro k fuel σ hk0 hk hfuel
    obtain ⟨f, rfl⟩ : ∃ f, fuel = f + 1 := ⟨fuel - 1, by omega⟩
    have hend : cursorAt B tw th k = ⟨B, tw, th, -1, -1⟩ := by
      unfold cursorAt
      rw [if_neg (by omega)]
    rw [hend]
    simp [enumerate, const_split_iterator.ne, cutEach]
  | succ m ih =>
    intro k fuel σ hk0 hk hfuel
    obtain ⟨f, rfl⟩ : ∃ f, fuel = f + 1 := ⟨fuel - 1, by omega⟩
    have hkn : k < (B.w / tw) * (B.h / th) := by omega
    obtain ⟨o1, _, o2, _⟩ := origin_bounds B.w B.h tw th k htw htwW hth hthH hk0 hkn
    have hcur : cursorAt B tw th k
        = ⟨B, tw, th, (tileOrigin B.w tw th k).1, (tileOrigin B.w tw th k).2⟩ := by
      unfold cursorAt
      rw [if_pos hkn]
    have hinc := inc_cursorAt B tw th k hW hH htw htwW hth hthH hk0 hkn
    have hne : (cursorAt B tw th k).ne ⟨B, tw, th, -1, -1⟩ = true := by
      rw [hcur]
      have : (tileOrigin B.w tw th k).1 ≠ -1 := by omega
      simp [const_split_iterator.ne, this]
    have hlist : List.map (fun i : Nat => tileOrigin B.w tw th (k + (i : Int)))
          (List.range (m + 1))
        = tileOrigin B.w tw th k ::
          List.map (fun i : Nat => tileOrigin B.w tw th (k + 1 + (i : Int))) (List.range m) := by
      rw [List.range_succ_eq_map, List.map_cons, List.map_map]
      congr 1
      · simp
      · apply List.map_congr_left
        intro i _
        simp only [Function.comp_apply]
        congr 1
        push_cast
        ring
    rw [hlist]
    unfold enumerate
    rw [if_pos hne, hinc]
    have hderef : (cursorAt B tw th k).deref σ
        = B.cut σ (tileOrigin B.w tw th k).1 (tileOrigin B.w tw th k).2 tw th := by
      rw [hcur]
      rfl
    rw [hderef]
    unfold cutEach
    cases hcut : B.cut σ (tileOrigin B.w tw th k).1 (tileOrigin B.w tw th k).2 tw th with
    | none => rfl
    | some r =>
      obtain ⟨σ1, t⟩ := r
      simp only [Option.bind_eq_bind, Option.some_bind]
      rw [ih (k + 1) f σ1 (by omega) (by push_cast at hk ⊢; omega) (by omega)]

/-! ## Tiling: the tiles -/

/-- Growth of the store leaves a valid buffer valid. -/
theorem valid_append (σ τ : Heap) (B : basic_bitmap) (h : valid σ B) : valid (σ ++ τ) B := by
  obtain ⟨h1, h2, h3, a, vec, hp, ha, hl⟩ := (valid_iff σ B).mp h
  have halt : a < σ.length := by
    by_contra hcon
    rw [List.getElem?_eq_none (by omega)] at ha
    exact Option.noConfusion ha
  exact (valid_iff _ B).mpr ⟨h1, h2, h3, a, vec, hp,
    by rw [List.getElem?_append_left halt]; exact ha, hl⟩

/-- Growth of the store leaves the elements of a valid buffer as they are. -/
theorem get_append (σ τ : Heap) (B : basic_bitmap) (h : valid σ B) (i : Int) :
    B.get (σ ++ τ) i = B.get σ i := by
  obtain ⟨h1, h2, h3, a, vec, hp, ha, hl⟩ := (valid_iff σ B).mp h
  have halt : a < σ.length := by
    by_contra hcon
    rw [List.getElem?_eq_none (by omega)] at ha
    exact Option.noConfusion ha
  simp only [basic_bitmap.get, hp, Option.bind_eq_bind, Option.some_bind]
  exact load_append σ τ a i halt

/-- Cutting tiles of one size at origins that keep them inside a valid buffer:
every cut succeeds, the store grows by the vectors of the tiles, and each tile
holds its rectangle of the buffer. -/
theorem cutEach_spec (B : basic_bitmap) (tw th : Int) (htw : 0 ≤ tw) (hth : 0 ≤ th) :
    ∀ (ps : List (Int × Int)) (σ : Heap), valid σ B →
      (∀ p ∈ ps, 0 ≤ p.1 ∧ p.1 + tw ≤ B.w ∧ 0 ≤ p.2 ∧ p.2 + th ≤ B.h) →
      ∃ τ : Heap, ∃ ts : List basic_bitmap,
        cutEach B tw th σ ps = some (σ ++ τ, ts) ∧ ts.length = ps.length ∧
        ∀ (k : Nat) (p : Int × Int), ps[k]? = some p →
          ∃ t, ts[k]? = some t ∧ t.w = tw ∧ t.h = th ∧
            ∀ i j : Int, 0 ≤ i → i < tw → 0 ≤ j → j < th →
              ∃ c, t.get (σ ++ τ) (i + j * tw) = some c ∧
                B.get σ (p.1 + i + (p.2 + j) * B.w) = some c := by
  intro ps
  induction ps with
  | nil =>
    intro σ _ _
    exact ⟨[], [], by simp [cutEach], rfl, fun k p hk => by simp at hk⟩
  | cons p ps ih =>
    intro σ hv hps
    obtain ⟨hp1, hp2, hp3, hp4⟩ := hps p (List.mem_cons_self _ _)
    obtain ⟨v, hcut, _, hcells⟩ := cut_spec σ B p.1 p.2 tw th hv hp1 hp3 htw hth hp2 hp4
    obtain ⟨τ, ts, hrest, hlen, htiles⟩ := ih (σ ++ [v]) (valid_append σ [v] B hv)
      (fun q hq => hps q (List.mem_cons_of_mem _ hq))
    refine ⟨v :: τ, ⟨some σ.length, tw, th⟩ :: ts, ?_, by simp [hlen], ?_⟩
    · unfold cutEach
      rw [hcut]
      simp only [Option.bind_eq_bind, Option.some_bind]
      rw [hrest]
      simp
    · intro k q hk
      have happ : σ ++ v :: τ = σ ++ [v] ++ τ := by simp
      cases k with
      | zero =>
        simp only [List.getElem?_cons_zero, Option.some.injEq] at hk
        subst hk
        refine ⟨⟨some σ.length, tw, th⟩, List.getElem?_cons_zero, rfl, rfl, ?_⟩
        intro i j hi0 hi hj0 hj
        obtain ⟨c, hc1, hc2⟩ := hcells i j hi0 hi hj0 hj
        refine ⟨c, ?_, hc1⟩
        simp only [basic_bitmap.get, Option.bind_eq_bind, Option.some_bind]
        rw [happ, load_append _ τ _ _ (by simp), load_append_last, hc2]
      | succ k =>
        simp only [List.getElem?_cons_succ] at hk
        obtain ⟨t, ht, hw, hh, hcell⟩ := htiles k q hk
        refine ⟨t, by simpa using ht, hw, hh, ?_⟩
        intro i j hi0 hi hj0 hj
        obtain ⟨c, hc1, hc2⟩ := hcell i j hi0 hi hj0 hj
        rw [get_append σ [v] B hv] at hc2
        exact ⟨c, by rw [happ]; exact hc1, hc2⟩

/-! ## Element writes -/

theorem getElem?_lt_length {α : Type} (l : List α) (a : Nat) (x : α) (h : l[a]? = some x) :
    a < l.length := by
  by_contra hcon
  rw [List.getElem?_eq_none (by omega)] at h
  exact Option.noConfusion h

theorem store_eq (σ : Heap) (a : Nat) (vec : Vec) (i : Int) (v : Nat) (ha : σ[a]? = some vec)
    (h0 : 0 ≤ i) (h1 : i < vec.length) :
    store σ a i v = some (σ.set a (vec.set i.toNat v)) := by
  unfold store
  have h2 : i.toNat < vec.length := by omega
  rw [if_neg (by omega), ha]
  simp only [h2, if_true]

/-- A successful `store` replaces the vector at its address by one of the same
length and leaves the rest of the store as it is. -/
theorem store_some (σ σ' : Heap) (a : Nat) (i : Int) (v : Nat) (h : store σ a i v = some σ') :
    ∃ vec, σ[a]? = some vec ∧ 0 ≤ i ∧ i < vec.length ∧ σ' = σ.set a (vec.set i.toNat v) := by
  unfold store at h
  by_cases hi : i < 0
  · rw [if_pos hi] at h; exact Option.noConfusion h
  · rw [if_neg hi] at h
    cases ha : σ[a]? with
    | none => rw [ha] at h; exact Option.noConfusion h
    | some vec =>
      rw [ha] at h
      by_cases hl : i.toNat < vec.length
      · simp only [hl, if_true, Option.some.injEq] at h
        exact ⟨vec, rfl, by omega, by omega, h.symm⟩
      · simp only [hl, if_false] at h
        exact Option.noConfusion h

theorem load_set_same (σ : Heap) (a : Nat) (vec : Vec) (i : Int) (ha : a < σ.length) :
    load (σ.set a vec) a i = loadArr vec i := by
  unfold load loadArr
  rw [List.getElem?_set_self ha]

theorem load_set_ne (σ : Heap) (a b : Nat) (vec : Vec) (i : Int) (hab : a ≠ b) :
    load (σ.set a vec) b i = load σ b i := by
  unfold load
  rw [List.getElem?_set_ne hab]

/-! ## Negative dimensions -/

theorem mul32_neg (w h : Int) (hsign : (w < 0 ∧ 0 < h) ∨ (0 < w ∧ h < 0))
    (hrange : -2147483648 ≤ w * h) : mul32 w h < 0 := by
  have hneg : w * h < 0 := by
    rcases hsign with ⟨h1, h2⟩ | ⟨h1, h2⟩
    · exact mul_neg_of_neg_of_pos h1 h2
    · exact mul_neg_of_pos_of_neg h1 h2
  rw [mul32_eq _ _ hrange (by omega)]
  exact hneg

theorem make_shared_neg (σ : Heap) (n : Int) (h : n < 0) : make_shared σ n = none := by
  unfold make_shared
  rw [if_pos h]

/-! ## clone -/

theorem loadArr_natCast (v : Vec) (k : Nat) : loadArr v (k : Int) = v[k]? := by
  unfold loadArr
  rw [if_neg (by omega), Int.toNat_ofNat]

/-- Two vectors of one length that agree at every index are equal. -/
theorem vec_ext (v w : Vec) (hl : v.length = w.length)
    (h : ∀ m : Int, 0 ≤ m → m < v.length → loadArr v m = loadArr w m) : v = w := by
  apply List.ext_getElem?
  intro k
  by_cases hk : k < v.length
  · have := h k (by omega) (by omega)
    rwa [loadArr_natCast, loadArr_natCast] at this
  · rw [List.getElem?_eq_none (by omega), List.getElem?_eq_none (by omega)]

/-- A `memcpy` of a whole array into a fresh vector of the same length. -/
theorem memcpy_fresh (sizeofT : Nat) (σ : Heap) (src : Vec) (nbytes : Nat)
    (hcnt : nbytes / sizeofT = src.length) :
    memcpy sizeofT (σ ++ [List.replicate src.length 0]) σ.length 0 src 0 nbytes
      = some (σ ++ [src]) := by
  unfold memcpy
  rw [hcnt]
  obtain ⟨s', hloop, v, rfl, hvl, hvm⟩ := forLoop_inv
    (fun k s => ∃ v : Vec, s = σ ++ [v] ∧ v.length = src.length ∧
      ∀ m : Int, 0 ≤ m → m < k → loadArr v m = loadArr src m)
    0 (src.length : Int)
    (fun k s => do
      let v ← loadArr src (0 + k)
      store s σ.length (0 + k) v)
    (σ ++ [List.replicate src.length 0]) (by omega)
    ⟨_, rfl, by simp, fun m h0 h1 => by omega⟩
    (fun k s hk0 hk hs => by
      obtain ⟨v, rfl, hvl, hvm⟩ := hs
      obtain ⟨c, hc⟩ := loadArr_isSome src k hk0 hk
      refine ⟨σ ++ [v.set k.toNat c], ?_, _, rfl, by simpa using hvl, ?_⟩
      · simp only [zero_add, hc, Option.bind_eq_bind, Option.some_bind]
        exact store_append_last σ v k c hk0 (by omega)
      · intro m hm0 hm
        rw [loadArr_set v k m c hk0 (by omega)]
        by_cases hmk : m = k
        · rw [if_pos hmk, hmk, hc]
        · rw [if_neg hmk]
          exact hvm m hm0 (by omega))
  rw [hloop, vec_ext v src hvl (fun m h0 h1 => hvm m h0 (by omega))]

/-- The byte count `sizeof(T) * width * height` of the raw-array constructor,
in elements, when the product of the dimensions is the length `n`. -/
theorem byte_count (sizeofT : Nat) (W H : Int) (n : Nat) (hn : (n : Int) = W * H)
    (hn31 : n < 2147483648) (hs0 : 0 < sizeofT) (hs : sizeofT ≤ 4294967296) :
    wrapU64 ((sizeofT : Int) * W * H) / sizeofT = n := by
  have h1 : (sizeofT : Int) * W * H = ((sizeofT * n : Nat) : Int) := by
    push_cast
    rw [hn]
    ring
  have h2 : sizeofT * n < 18446744073709551616 := by
    calc sizeofT * n ≤ 4294967296 * n := Nat.mul_le_mul_right _ hs
      _ < 18446744073709551616 := by omega
  unfold wrapU64
  rw [h1]
  have h3 : ((sizeofT * n : Nat) : Int) % 18446744073709551616 = ((sizeofT * n : Nat) : Int) :=
    Int.emod_eq_of_lt (by omega) (by omega)
  rw [h3, Int.toNat_ofNat, Nat.mul_div_cancel_left _ hs0]

/-- The result of `clone` on a valid buffer: the store grows by one vector,
equal to the vector of the buffer, and the clone points to it. -/
theorem clone_spec (sizeofT : Nat) (σ : Heap) (B : basic_bitmap) (hB : valid σ B)
    (hs0 : 0 < sizeofT) (hs : sizeofT ≤ 4294967296) :
    ∃ a src, B.pixels = some a ∧ σ[a]? = some src ∧ a < σ.length ∧
      (src.length : Int) = B.w * B.h ∧
      B.clone sizeofT σ = some (σ ++ [src], ⟨some σ.length, B.w, B.h⟩) := by
  obtain ⟨hW, hH, hWH, a, src, hp, ha, hl⟩ := (valid_iff σ B).mp hB
  have halt := getElem?_lt_length σ a src ha
  refine ⟨a, src, hp, ha, halt, hl, ?_⟩
  have hn0 : 0 ≤ B.w * B.h := mul_nonneg hW hH
  have hmul : mul32 B.w B.h = B.w * B.h := mul32_eq _ _ (by omega) hWH
  have htoNat : (B.w * B.h).toNat = src.length := by omega
  have hcnt := byte_count sizeofT B.w B.h src.length hl (by omega) hs0 hs
  unfold basic_bitmap.clone basic_bitmap.data basic_bitmap.ctorPtr make_shared
  rw [hp]
  simp only [halt, if_true, ha, hmul, Option.bind_eq_bind, Option.some_bind]
  rw [if_neg (by omega)]
  simp only [Option.some_bind, htoNat]
  rw [memcpy_fresh sizeofT σ src _ hcnt]
  rfl

theorem store_load_ne (σ σ' : Heap) (a b : Nat) (i j : Int) (v : Nat)
    (h : store σ a i v = some σ') (hab : a ≠ b) : load σ' b j = load σ b j := by
  obtain ⟨vec, _, _, _, rfl⟩ := store_some σ σ' a i v h
  exact load_set_ne σ a b _ j hab

/-! ## Construction from a generator -/

theorem length_forRange (lo hi : Int) : (forRange lo hi).length = (hi - lo).toNat := by
  simp only [forRange, List.length_map, List.length_range]

theorem forRange_succ (lo k : Int) (h : lo ≤ k) : forRange lo (k + 1) = forRange lo k ++ [k] := by
  unfold forRange
  have e : (k + 1 - lo).toNat = (k - lo).toNat + 1 := by omega
  rw [e, List.range_succ, List.map_append, List.map_singleton]
  congr 2
  omega

theorem getElem?_forRange (lo hi : Int) (k : Nat) (hk : k < (hi - lo).toNat) :
    (forRange lo hi)[k]? = some (lo + k) := by
  unfold forRange
  rw [List.getElem?_map, List.getElem?_range hk]
  rfl

theorem rowMajor_succ (W y : Int) (hy : 0 ≤ y) :
    rowMajor W (y + 1) = rowMajor W y ++ List.map (fun x => (x, y)) (forRange 0 W) := by
  unfold rowMajor
  rw [forRange_succ 0 y hy, List.flatMap_append]
  simp

theorem rowMajor_zero (W : Int) : rowMajor W 0 = [] := by
  unfold rowMajor forRange
  simp

theorem length_rowMajor (W : Int) (hW : 0 ≤ W) (n : Nat) :
    ((rowMajor W n).length : Int) = n * W := by
  induction n with
  | zero => simp [rowMajor_zero]
  | succ n ih =>
    have e : ((n + 1 : Nat) : Int) = (n : Int) + 1 := by push_cast; ring
    rw [e, rowMajor_succ W n (by omega), List.length_append, List.length_map, length_forRange]
    push_cast
    rw [ih]
    have : ((W - 0).toNat : Int) = W := by omega
    rw [this]
    ring

theorem getElem?_rowMajor (W : Int) (n : Nat) (x y : Int) (hx0 : 0 ≤ x) (hx : x < W)
    (hy0 : 0 ≤ y) (hy : y < n) : (rowMajor W n)[(x + y * W).toNat]? = some (x, y) := by
  induction n with
  | zero => omega
  | succ n ih =>
    have e : ((n + 1 : Nat) : Int) = (n : Int) + 1 := by push_cast; ring
    rw [e, rowMajor_succ W n (by omega)]
    have hlen := length_rowMajor W (by omega) n
    obtain ⟨b1, b2, b3⟩ := index_bounds W (y + 1) x y hx0 hx hy0 (by omega)
    by_cases hyn : y < n
    · obtain ⟨c1, c2, c3⟩ := index_bounds W n x y hx0 hx hy0 hyn
      have c4 : W * n = n * W := by ring
      rw [List.getElem?_append_left (by omega)]
      exact ih hyn
    · have hyn' : y = n := by omega
      subst hyn'
      rw [List.getElem?_append_right (by omega), List.getElem?_map]
      have e2 : (x + (n : Int) * W).toNat - (rowMajor W n).length = x.toNat := by omega
      rw [e2, getElem?_forRange 0 W x.toNat (by omega)]
      simp only [Option.map_some', zero_add]
      congr 2
      omega

theorem runCalls_append {G : Type} (f : Int → Int → G → Nat × G) (l : List (Int × Int))
    (p : Int × Int) : ∀ g : G, runCalls f g (l ++ [p])
      = ((runCalls f g l).1 ++ [(f p.1 p.2 (runCalls f g l).2).1],
          (f p.1 p.2 (runCalls f g l).2).2) := by
  induction l with
  | nil => intro g; simp [runCalls]
  | cons q l ih => intro g; simp [runCalls, ih]

theorem length_runCalls {G : Type} (f : Int → Int → G → Nat × G) (l : List (Int × Int)) :
    ∀ g : G, (runCalls f g l).1.length = l.length := by
  induction l with
  | nil => intro g; simp [runCalls]
  | cons q l ih => intro g; simp [runCalls, ih]

/-- When the returned value does not depend on the generator state, the values
of the calls are those of the coordinates. -/
theorem runCalls_values {G : Type} (f : Int → Int → G → Nat × G) (val : Int → Int → Nat)
    (hval : ∀ x y g, (f x y g).1 = val x y) (l : List (Int × Int)) :
    ∀ g : G, (runCalls f g l).1 = l.map (fun p => val p.1 p.2) := by
  induction l with
  | nil => intro g; simp [runCalls]
  | cons q l ih => intro g; simp [runCalls, ih, hval]

theorem length_rowMajor_int (W y : Int) (hW : 0 ≤ W) (hy : 0 ≤ y) :
    ((rowMajor W y).length : Int) = y * W := by
  obtain ⟨n, rfl⟩ := Int.eq_ofNat_of_zero_le hy
  exact length_rowMajor W hW n

theorem gen_step {G : Type} (σ : Heap) (f : Int → Int → G → Nat × G) (g : G) (n : Int)
    (done : List (Int × Int)) (xx yy idx : Int) (st : Heap × G)
    (hidx : idx = done.length) (hn : idx < n) (hs : genInv σ f g n done st) :
    ∃ st', (store st.1 σ.length idx (f xx yy st.2).1).bind
        (fun s1 => some (s1, (f xx yy st.2).2)) = some st' ∧
      genInv σ f g n (done ++ [(xx, yy)]) st' := by
  obtain ⟨v, rfl, hvl, hvm⟩ := hs
  have hk : idx.toNat = done.length := by omega
  have hlenv := length_runCalls f done g
  refine ⟨(σ ++ [v.set idx.toNat (f xx yy (runCalls f g done).2).1],
    (f xx yy (runCalls f g done).2).2), ?_,
    v.set idx.toNat (f xx yy (runCalls f g done).2).1, ?_, by simpa using hvl, ?_⟩
  · simp only []
    rw [store_append_last σ v idx _ (by omega) (by omega)]
    rfl
  · rw [runCalls_append]
  · intro m hm
    rw [runCalls_append, hk]
    simp only [List.length_append, List.length_singleton] at hm
    show _ = ((runCalls f g done).1 ++ [(f xx yy (runCalls f g done).2).1])[m]?
    by_cases hmk : m = done.length
    · subst hmk
      rw [List.getElem?_set_self (by omega), List.getElem?_append_right (by omega), hlenv]
      simp
    · rw [List.getElem?_set_ne (by omega), hvm m (by omega),
        List.getElem?_append_left (by omega)]

/-- The generator constructor on dimensions whose product fits `int32_t`: the
store grows by one vector, which holds the values returned by the calls
`f(x, y)` made in row-major order, and the generator ends in the state these
calls leave. -/
theorem ctorFn_spec {G : Type} (σ : Heap) (W H : Int) (f : Int → Int → G → Nat × G) (g : G)
    (hW : 0 ≤ W) (hH : 0 ≤ H) (hWH : W * H < 2147483648) :
    basic_bitmap.ctorFn σ W H f g
      = some (σ ++ [(runCalls f g (rowMajor W H)).1], ⟨some σ.length, W, H⟩,
          (runCalls f g (rowMajor W H)).2) := by
  have hn0 : 0 ≤ W * H := mul_nonneg hW hH
  have hmul : mul32 W H = W * H := mul32_eq _ _ (by omega) hWH
  obtain ⟨st', hloop, v, rfl, hvl, hvm⟩ := forLoop_inv
    (fun yy st => genInv σ f g (W * H) (rowMajor W yy) st) 0 H
    (fun yy st =>
      forLoop 0 W (fun xx st =>
        (store st.1 σ.length (add32 xx (mul32 W yy)) (f xx yy st.2).1).bind
          (fun s1 => some (s1, (f xx yy st.2).2))) st)
    (σ ++ [List.replicate (W * H).toNat 0], g) hH
    ⟨_, by rw [rowMajor_zero]; rfl, by simp only [List.length_replicate]; omega,
      fun m hm => by rw [rowMajor_zero] at hm; simp at hm⟩
    (fun yy st hyy0 hyy hs => by
      have := forLoop_inv
        (fun xx st => genInv σ f g (W * H)
          (rowMajor W yy ++ List.map (fun x => (x, yy)) (forRange 0 xx)) st) 0 W
        (fun xx st =>
          (store st.1 σ.length (add32 xx (mul32 W yy)) (f xx yy st.2).1).bind
            (fun s1 => some (s1, (f xx yy st.2).2))) st hW
        (by
          have e : forRange 0 0 = [] := by simp [forRange]
          beta_reduce
          rw [e, List.map_nil, List.append_nil]
          exact hs)
        (fun xx st hxx0 hxx hs => by
          obtain ⟨b1, b2, b3⟩ := index_bounds W H xx yy hxx0 hxx hyy0 hyy
          have hlen := length_rowMajor_int W yy hW hyy0
          have e0 : W * yy = yy * W := by ring
          have e1 : mul32 W yy = W * yy := mul32_eq _ _ (by omega) (by omega)
          have e2 : add32 xx (W * yy) = xx + W * yy := add32_eq _ _ (by omega) (by omega)
          beta_reduce
          rw [e1, e2, forRange_succ 0 xx hxx0, List.map_append, List.map_singleton,
            ← List.append_assoc]
          refine gen_step σ f g (W * H) _ xx yy (xx + W * yy) st ?_ (by omega) hs
          rw [List.length_append, List.length_map, length_forRange]
          push_cast
          omega)
      beta_reduce
      rw [rowMajor_succ W yy hyy0]
      exact this)
  have hv : v = (runCalls f g (rowMajor W H)).1 := by
    have hl1 := length_runCalls f (rowMajor W H) g
    have hl2 := length_rowMajor_int W H hW hH
    have hl3 : H * W = W * H := by ring
    apply List.ext_getElem?
    intro m
    by_cases hm : m < (rowMajor W H).length
    · exact hvm m hm
    · rw [List.getElem?_eq_none (by omega), List.getElem?_eq_none (by omega)]
  unfold basic_bitmap.ctorFn make_shared
  rw [hmul, if_neg (by omega)]
  simp only [Option.bind_eq_bind, Option.some_bind, Option.pure_def] at hloop ⊢
  rw [hloop, hv]
  rfl

/-- A loop whose first round fails has failed. -/
theorem forLoop_fail_first {S : Type} (lo hi : Int) (body : Int → S → Option S) (s : S)
    (h : lo < hi) (hb : body lo s = none) : forLoop lo hi body s = none := by
  unfold forLoop forRange
  obtain ⟨k, hk⟩ : ∃ k, (hi - lo).toNat = k + 1 := ⟨(hi - lo).toNat - 1, by omega⟩
  rw [hk, List.range_succ_eq_map, List.map_cons, List.foldlM_cons]
  simp only [Int.Nat.cast_ofNat_Int, Int.add_zero, Nat.cast_zero]
  rw [hb]
  rfl

/-- The generator constructor on a 65536 by 65536 request: the `int32_t`
product `width * height` is 0, the vector is empty, and the first assignment,
to element 0, is outside it. -/
theorem ctorFn_65536 {G : Type} (σ : Heap) (f : Int → Int → G → Nat × G) (g : G) :
    basic_bitmap.ctorFn σ 65536 65536 f g = none := by
  have hmul : mul32 65536 65536 = 0 := by decide
  have hidx : add32 0 (mul32 65536 0) = 0 := by decide
  unfold basic_bitmap.ctorFn make_shared
  simp only [hmul, Option.bind_eq_bind, Option.some_bind]
  rw [if_neg (by decide)]
  simp only [Option.some_bind]
  rw [forLoop_fail_first 0 65536 _ _ (by decide)]
  · rfl
  · rw [forLoop_fail_first 0 65536 _ _ (by decide)]
    simp only [hidx]
    have : store (σ ++ [List.replicate (0 : Int).toNat 0]) σ.length 0 (f 0 0 g).1 = none := by
      unfold store
      simp
    rw [this]
    rfl

/-! ## Tiling: termination -/

/-- From any cursor inside the scanned area, finitely many `operator++` lead to
the end cursor.  `X` and `Y` bound the cursor, `m` bounds the number of cells
of the area that follow it. -/
theorem cursor_reaches_end (B : basic_bitmap) (tw th X Y : Int) (htw : 0 < tw) (hth : 0 < th)
    (hX0 : 0 ≤ X) (hX1 : B.w - tw ≤ X) (hX2 : X + tw < 2147483648)
    (hY1 : B.h - th ≤ Y) (hY2 : Y + th < 2147483648)
    (hW : -2147483648 ≤ B.w - tw) (hH : -2147483648 ≤ B.h - th) :
    ∀ (m : Nat) (xp yp : Int), 0 ≤ xp → xp ≤ X → 0 ≤ yp → yp ≤ Y →
      (Y - yp) * (X + 1) + (X - xp) < m →
      ∃ n : Nat, Nat.iterate const_split_iterator.inc n ⟨B, tw, th, xp, yp⟩
        = ⟨B, tw, th, -1, -1⟩ := by
  intro m
  induction m with
  | zero =>
    intro xp yp hx0 hx hy0 hy hm
    have : 0 ≤ (Y - yp) * (X + 1) := mul_nonneg (by omega) (by omega)
    omega
  | succ m ih =>
    intro xp yp hx0 hx hy0 hy hm
    have e1 : add32 xp tw = xp + tw := add32_eq _ _ (by omega) (by omega)
    have e2 : sub32 B.w tw = B.w - tw := sub32_eq _ _ (by omega) (by omega)
    have e3 : add32 yp th = yp + th := add32_eq _ _ (by omega) (by omega)
    have e4 : sub32 B.h th = B.h - th := sub32_eq _ _ (by omega) (by omega)
    have hinc : const_split_iterator.inc ⟨B, tw, th, xp, yp⟩
        = if xp + tw > B.w - tw then
            if yp + th > B.h - th then ⟨B, tw, th, -1, -1⟩ else ⟨B, tw, th, 0, yp + th⟩
          else ⟨B, tw, th, xp + tw, yp⟩ := by
      unfold const_split_iterator.inc
      simp only [basic_bitmap.width, basic_bitmap.height, e1, e2, e3, e4]
    by_cases hcol : xp + tw > B.w - tw
    · by_cases hrow : yp + th > B.h - th
      · refine ⟨1, ?_⟩
        rw [Function.iterate_one, hinc, if_pos hcol, if_pos hrow]
      · have hmeasure : (Y - (yp + th)) * (X + 1) + (X - 0) < m := by
          have h1 : (Y - (yp + th)) * (X + 1) = (Y - yp) * (X + 1) - th * (X + 1) := by ring
          have h2 : 1 * (X + 1) ≤ th * (X + 1) :=
            mul_le_mul_of_nonneg_right (by omega) (by omega)
          omega
        obtain ⟨n, hn⟩ := ih 0 (yp + th) (by omega) hX0 (by omega) (by omega) hmeasure
        refine ⟨n + 1, ?_⟩
        rw [Function.iterate_succ_apply, hinc, if_pos hcol, if_neg hrow]
        exact hn
    · obtain ⟨n, hn⟩ := ih (xp + tw) yp (by omega) (by omega) hy0 hy (by omega)
      refine ⟨n + 1, ?_⟩
      rw [Function.iterate_succ_apply, hinc, if_neg hcol]
      exact hn

/-! ## Tiling: two enumerations -/

/-- Two loops whose rounds fail together, or succeed together with related
states, fail together or end in related states. -/
theorem foldlM_sim {α S T : Type} (R : S → T → Prop) (f : S → α → Option S)
    (g : T → α → Option T)
    (h : ∀ s t x, R s t → (f s x = none ∧ g t x = none) ∨
      ∃ s' t', f s x = some s' ∧ g t x = some t' ∧ R s' t') :
    ∀ (xs : List α) (s : S) (t : T), R s t →
      (xs.foldlM f s = none ∧ xs.foldlM g t = none) ∨
      ∃ s' t', xs.foldlM f s = some s' ∧ xs.foldlM g t = some t' ∧ R s' t' := by
  intro xs
  induction xs with
  | nil => intro s t hR; exact Or.inr ⟨s, t, rfl, rfl, hR⟩
  | cons x xs ih =>
    intro s t hR
    rcases h s t x hR with ⟨h1, h2⟩ | ⟨s', t', h1, h2, hR'⟩
    · left
      simp only [List.foldlM_cons, h1, h2]
      exact ⟨rfl, rfl⟩
    · simp only [List.foldlM_cons, h1, h2]
      exact ih s' t' hR'

theorem forLoop_sim {S T : Type} (R : S → T → Prop) (lo hi : Int) (f : Int → S → Option S)
    (g : Int → T → Option T)
    (h : ∀ i s t, R s t → (f i s = none ∧ g i t = none) ∨
      ∃ s' t', f i s = some s' ∧ g i t = some t' ∧ R s' t')
    (s : S) (t : T) (hR : R s t) :
    (forLoop lo hi f s = none ∧ forLoop lo hi g t = none) ∨
    ∃ s' t', forLoop lo hi f s = some s' ∧ forLoop lo hi g t = some t' ∧ R s' t' :=
  foldlM_sim R (fun s i => f i s) (fun t i => g i t) (fun s t x hR => h x s t hR)
    (forRange lo hi) s t hR

/-- A write to the last vector of the store: out of range, or done. -/
theorem store_append_cases (σ : Heap) (v : Vec) (i : Int) (x : Nat) :
    (store (σ ++ [v]) σ.length i x = none ∧ ¬ (0 ≤ i ∧ i < v.length)) ∨
    (0 ≤ i ∧ i < v.length ∧ store (σ ++ [v]) σ.length i x = some (σ ++ [v.set i.toNat x])) := by
  by_cases h : 0 ≤ i ∧ i < v.length
  · exact Or.inr ⟨h.1, h.2, store_append_last σ v i x h.1 h.2⟩
  · refine Or.inl ⟨?_, h⟩
    unfold store
    by_cases hi : i < 0
    · rw [if_pos hi]
    · have : ¬ i.toNat < v.length := by omega
      simp [hi, this]

/-- The result of `cut` depends on the store only through the vector of the
buffer: on two stores that hold the same vector at its address, `cut` fails on
both or appends the same vector to both. -/
theorem cut_sim (σ σ' : Heap) (B : basic_bitmap) (a : Nat) (src : Vec) (x y ww hh : Int)
    (hp : B.pixels = some a) (ha : σ[a]? = some src) (ha' : σ'[a]? = some src) :
    (B.cut σ x y ww hh = none ∧ B.cut σ' x y ww hh = none) ∨
    ∃ v : Vec, B.cut σ x y ww hh = some (σ ++ [v], ⟨some σ.length, ww, hh⟩) ∧
      B.cut σ' x y ww hh = some (σ' ++ [v], ⟨some σ'.length, ww, hh⟩) := by
  have halt := getElem?_lt_length σ a src ha
  have halt' := getElem?_lt_length σ' a src ha'
  unfold basic_bitmap.cut basic_bitmap.ctor make_shared basic_bitmap.data
  by_cases hneg : mul32 ww hh < 0
  · left
    simp only [hneg, if_true]
    exact ⟨rfl, rfl⟩
  · simp only [hneg, if_false, hp, Option.bind_eq_bind, Option.some_bind, Option.pure_def,
      List.length_append, List.length_singleton]
    rw [if_pos (by omega), if_pos (by omega)]
    simp only [Option.some_bind]
    have hbody : ∀ (yy xx : Int) (s s' : Heap),
        (∃ v : Vec, s = σ ++ [v] ∧ s' = σ' ++ [v]) →
        (((load s a (add32 (add32 xx x) (mul32 (add32 yy y) B.w))).bind fun v =>
            basic_bitmap.set ⟨some σ.length, ww, hh⟩ s (add32 xx (mul32 yy ww)) v) = none ∧
          ((load s' a (add32 (add32 xx x) (mul32 (add32 yy y) B.w))).bind fun v =>
            basic_bitmap.set ⟨some σ'.length, ww, hh⟩ s' (add32 xx (mul32 yy ww)) v) = none) ∨
        ∃ t t', ((load s a (add32 (add32 xx x) (mul32 (add32 yy y) B.w))).bind fun v =>
            basic_bitmap.set ⟨some σ.length, ww, hh⟩ s (add32 xx (mul32 yy ww)) v) = some t ∧
          ((load s' a (add32 (add32 xx x) (mul32 (add32 yy y) B.w))).bind fun v =>
            basic_bitmap.set ⟨some σ'.length, ww, hh⟩ s' (add32 xx (mul32 yy ww)) v)
              = some t' ∧
          ∃ v : Vec, t = σ ++ [v] ∧ t' = σ' ++ [v] := by
      rintro yy xx s s' ⟨v, rfl, rfl⟩
      rw [load_append σ [v] a _ halt, load_append σ' [v] a _ halt',
        load_of_getElem? σ a src _ ha, load_of_getElem? σ' a src _ ha']
      cases hc : loadArr src (add32 (add32 xx x) (mul32 (add32 yy y) B.w)) with
      | none => exact Or.inl ⟨rfl, rfl⟩
      | some c =>
        simp only [Option.some_bind, basic_bitmap.set, Option.bind_eq_bind]
        rcases store_append_cases σ v (add32 xx (mul32 yy ww)) c with ⟨h1, h2⟩ | ⟨h1, h2, h3⟩
        · rcases store_append_cases σ' v (add32 xx (mul32 yy ww)) c with
            ⟨k1, _⟩ | ⟨k1, k2, _⟩
          · exact Or.inl ⟨h1, k1⟩
          · exact absurd ⟨k1, k2⟩ h2
        · exact Or.inr ⟨_, _, h3, store_append_last σ' v _ c h1 h2, _, rfl, rfl⟩
    rcases forLoop_sim (fun s s' => ∃ v : Vec, s = σ ++ [v] ∧ s' = σ' ++ [v]) 0 hh
      (fun yy s => forLoop 0 ww (fun xx s =>
        (load s a (add32 (add32 xx x) (mul32 (add32 yy y) B.w))).bind fun v =>
          basic_bitmap.set ⟨some σ.length, ww, hh⟩ s (add32 xx (mul32 yy ww)) v) s)
      (fun yy s => forLoop 0 ww (fun xx s =>
        (load s a (add32 (add32 xx x) (mul32 (add32 yy y) B.w))).bind fun v =>
          basic_bitmap.set ⟨some σ'.length, ww, hh⟩ s (add32 xx (mul32 yy ww)) v) s)
      (fun yy s s' hR => forLoop_sim _ 0 ww _ _ (fun xx t t' hR' => hbody yy xx t t' hR') s s' hR)
      (σ ++ [List.replicate (mul32 ww hh).toNat 0]) (σ' ++ [List.replicate (mul32 ww hh).toNat 0])
      ⟨_, rfl, rfl⟩ with ⟨h1, h2⟩ | ⟨t, t', h1, h2, v, rfl, rfl⟩
    · left
      rw [h1, h2]
      exact ⟨rfl, rfl⟩
    · right
      refine ⟨v, ?_, ?_⟩
      · rw [h1]; rfl
      · rw [h2]; rfl

theorem tilesAt_succ (base n : Nat) (w h : Int) :
    tilesAt base (n + 1) w h = ⟨some base, w, h⟩ :: tilesAt (base + 1) n w h := by
  unfold tilesAt
  rw [List.range_succ_eq_map, List.map_cons, List.map_map]
  congr 1
  apply List.map_congr_left
  intro k _
  simp only [Function.comp_apply, Nat.succ_eq_add_one]
  congr 2
  omega

theorem inc_fields (it : const_split_iterator) :
    it.inc.bm = it.bm ∧ it.inc.width = it.width ∧ it.inc.height = it.height := by
  unfold const_split_iterator.inc
  simp only []
  split_ifs <;> exact ⟨rfl, rfl, rfl⟩

/-- The enumeration depends on the store only through the vector of the
buffer: on two stores that hold the same vector at its address it fails on
both, or appends the same tile vectors to both. -/
theorem enumerate_sim (B : basic_bitmap) (a : Nat) (src : Vec) (hp : B.pixels = some a) :
    ∀ (fuel : Nat) (σ σ' : Heap) (it e : const_split_iterator), it.bm = B →
      σ[a]? = some src → σ'[a]? = some src →
      (enumerate fuel σ it e = none ∧ enumerate fuel σ' it e = none) ∨
      ∃ τ : Heap,
        enumerate fuel σ it e
          = some (σ ++ τ, tilesAt σ.length τ.length it.width it.height) ∧
        enumerate fuel σ' it e
          = some (σ' ++ τ, tilesAt σ'.length τ.length it.width it.height) := by
  intro fuel
  induction fuel with
  | zero => intro σ σ' it e _ _ _; exact Or.inl ⟨rfl, rfl⟩
  | succ fuel ih =>
    intro σ σ' it e hbm ha ha'
    unfold enumerate
    by_cases hne : it.ne e = true
    · rw [if_pos hne, if_pos hne]
      unfold const_split_iterator.deref
      rw [hbm]
      rcases cut_sim σ σ' B a src it.xpos it.ypos it.width it.height hp ha ha' with
        ⟨h1, h2⟩ | ⟨v, h1, h2⟩
      · rw [h1, h2]
        exact Or.inl ⟨rfl, rfl⟩
      · rw [h1, h2]
        simp only [Option.bind_eq_bind, Option.some_bind, Option.pure_def]
        obtain ⟨f1, f2, f3⟩ := inc_fields it
        have halt := getElem?_lt_length σ a src ha
        have halt' := getElem?_lt_length σ' a src ha'
        rcases ih (σ ++ [v]) (σ' ++ [v]) it.inc e (by rw [f1, hbm])
          (by rw [List.getElem?_append_left halt]; exact ha)
          (by rw [List.getElem?_append_left halt']; exact ha') with ⟨k1, k2⟩ | ⟨τ, k1, k2⟩
        · rw [k1, k2]
          exact Or.inl ⟨rfl, rfl⟩
        · right
          refine ⟨v :: τ, ?_, ?_⟩
          · rw [k1, f2, f3]
            simp only [Option.some_bind, List.length_append, List.length_singleton,
              List.length_cons, List.length_nil, Nat.zero_add, tilesAt_succ, List.append_assoc,
              List.singleton_append]
          · rw [k2, f2, f3]
            simp only [Option.some_bind, List.length_append, List.length_singleton,
              List.length_cons, List.length_nil, Nat.zero_add, tilesAt_succ, List.append_assoc,
              List.singleton_append]
    · rw [if_neg hne, if_neg hne]
      right
      exact ⟨[], by simp [tilesAt], by simp [tilesAt]⟩

theorem load_append_right (σ τ : Heap) (k : Nat) (i : Int) :
    load (σ ++ τ) (σ.length + k) i = (τ[k]?).bind (fun vec => loadArr vec i) := by
  unfold load loadArr
  rw [List.getElem?_append_right (by omega), Nat.add_sub_cancel_left]
  by_cases hi : i < 0
  · simp only [hi, if_true]
    cases τ[k]? <;> rfl
  · simp only [hi, if_false]
    cases τ[k]? <;> rfl

theorem getElem?_tilesAt (base n k : Nat) (w h : Int) (hk : k < n) :
    (tilesAt base n w h)[k]? = some ⟨some (base + k), w, h⟩ := by
  unfold tilesAt
  rw [List.getElem?_map, List.getElem?_range hk]
  rfl

theorem length_tilesAt (base n : Nat) (w h : Int) : (tilesAt base n w h).length = n := by
  simp [tilesAt]

theorem getElem_tilesAt (base n k : Nat) (w h : Int) (hk : k < (tilesAt base n w h).length) :
    (tilesAt base n w h)[k] = ⟨some (base + k), w, h⟩ := by
  have hk' : k < n := by rwa [length_tilesAt] at hk
  have h1 := getElem?_tilesAt base n k w h hk'
  rw [List.getElem?_eq_getElem hk] at h1
  exact Option.some.inj h1

/-- Two enumerations of one valid buffer, the second on the store the first
left: the second yields as many tiles, of the same size and contents. -/
theorem enumerate_twice (σ s1 : Heap) (B : basic_bitmap) (tw th : Int) (fuel : Nat)
    (ts : List basic_bitmap) (hB : valid σ B)
    (hfirst : (B.split tw th).tiles fuel σ = some (s1, ts)) :
    (∀ i : Int, B.get s1 i = B.get σ i) ∧
    ∃ s2 ts2, (B.split tw th).tiles fuel s1 = some (s2, ts2) ∧ ts2.length = ts.length ∧
      ∀ k (hk : k < ts.length) (hk2 : k < ts2.length),
        ts2[k].width = ts[k].width ∧ ts2[k].height = ts[k].height ∧
        ∀ i : Int, ts2[k].get s2 i = ts[k].get s1 i := by
  obtain ⟨_, _, _, a, src, hp, ha, _⟩ := (valid_iff σ B).mp hB
  have halt := getElem?_lt_length σ a src ha
  unfold splitter.tiles at hfirst ⊢
  rcases enumerate_sim B a src hp fuel σ σ (B.split tw th).begin (B.split tw th).end rfl ha ha
    with ⟨h1, _⟩ | ⟨τ, h1, _⟩
  · rw [h1] at hfirst; exact Option.noConfusion hfirst
  · rw [h1] at hfirst
    injection hfirst with hfirst
    injection hfirst with e1 e2
    subst e1 e2
    have ha' : (σ ++ τ)[a]? = some src := by rw [List.getElem?_append_left halt]; exact ha
    rcases enumerate_sim B a src hp fuel σ (σ ++ τ) (B.split tw th).begin (B.split tw th).end
      rfl ha ha' with ⟨k1, _⟩ | ⟨τ2, k1, k2⟩
    · rw [h1] at k1; exact Option.noConfusion k1
    · rw [h1] at k1
      injection k1 with k1
      injection k1 with e1 _
      have e : τ2 = τ := (List.append_cancel_left e1).symm
      subst e
      refine ⟨fun i => get_append σ τ2 B hB i, _, _, k2, ?_, ?_⟩
      · rw [length_tilesAt, length_tilesAt]
      · intro k hk hk2
        have hk' : k < τ2.length := by rwa [length_tilesAt] at hk
        rw [getElem_tilesAt _ _ k _ _ hk, getElem_tilesAt _ _ k _ _ hk2]
        refine ⟨rfl, rfl, ?_⟩
        intro i
        simp only [basic_bitmap.get, Option.bind_eq_bind, Option.some_bind]
        rw [load_append_right, load_append_right]

/-! ## The storage-length invariant -/

/-- A property kept by every successful round holds after a successful loop. -/
theorem foldlM_pres {α S : Type} (P : S → Prop) (body : S → α → Option S)
    (h : ∀ s x s', P s → body s x = some s' → P s') :
    ∀ (xs : List α) (s s' : S), P s → xs.foldlM body s = some s' → P s' := by
  intro xs
  induction xs with
  | nil =>
    intro s s' hP hf
    simp only [List.foldlM_nil, Option.pure_def, Option.some.injEq] at hf
    exact hf ▸ hP
  | cons x xs ih =>
    intro s s' hP hf
    simp only [List.foldlM_cons, Option.bind_eq_bind] at hf
    obtain ⟨s1, h1, h2⟩ := Option.bind_eq_some.mp hf
    exact ih s1 s' (h s x s1 hP h1) h2

theorem forLoop_pres {S : Type} (P : S → Prop) (lo hi : Int) (body : Int → S → Option S)
    (h : ∀ i s s', P s → body i s = some s' → P s') (s s' : S) (hP : P s)
    (hf : forLoop lo hi body s = some s') : P s' :=
  foldlM_pres P (fun s i => body i s) (fun s x s' hP hb => h x s s' hP hb) _ s s' hP hf

theorem shape_set (σ : Heap) (a : Nat) (vec vec' : Vec) (ha : σ[a]? = some vec)
    (hl : vec'.length = vec.length) : shape (σ.set a vec') = shape σ := by
  unfold shape
  apply List.ext_getElem?
  intro k
  rw [List.getElem?_map, List.getElem?_map]
  by_cases hk : a = k
  · subst hk
    rw [List.getElem?_set_self (getElem?_lt_length σ a vec ha), ha]
    simp [hl]
  · rw [List.getElem?_set_ne hk]

theorem store_shape (σ σ' : Heap) (a : Nat) (i : Int) (v : Nat)
    (h : store σ a i v = some σ') : shape σ' = shape σ := by
  obtain ⟨vec, ha, _, _, rfl⟩ := store_some σ σ' a i v h
  exact shape_set σ a vec _ ha (by simp)

theorem set_shape (B : basic_bitmap) (σ σ' : Heap) (i : Int) (v : Nat)
    (h : B.set σ i v = some σ') : shape σ' = shape σ := by
  unfold basic_bitmap.set at h
  obtain ⟨a, _, h2⟩ := Option.bind_eq_some.mp h
  exact store_shape σ σ' a i v h2

theorem memcpy_shape (sizeofT : Nat) (σ σ' : Heap) (a : Nat) (di : Int) (src : List Nat)
    (si : Int) (nbytes : Nat) (h : memcpy sizeofT σ a di src si nbytes = some σ') :
    shape σ' = shape σ := by
  unfold memcpy at h
  refine forLoop_pres (fun s => shape s = shape σ) _ _ _ ?_ σ σ' rfl h
  intro k s s' hP hb
  obtain ⟨c, _, h2⟩ := Option.bind_eq_some.mp hb
  rw [store_shape s s' a _ c h2, hP]

theorem memset_shape (sizeofT : Nat) (σ σ' : Heap) (a : Nat) (byte nbytes : Nat)
    (h : memset sizeofT σ a byte nbytes = some σ') : shape σ' = shape σ := by
  unfold memset at h
  refine forLoop_pres (fun s => shape s = shape σ) _ _ _ ?_ σ σ' rfl h
  intro k s s' hP hb
  rw [store_shape s s' a _ _ hb, hP]

/-- Validity of a buffer depends on the store only through its shape. -/
theorem valid_of_shape (σ σ' : Heap) (B : basic_bitmap) (hs : shape σ' = shape σ)
    (hB : valid σ B) : valid σ' B := by
  obtain ⟨h1, h2, h3, a, vec, hp, ha, hl⟩ := (valid_iff σ B).mp hB
  have h4 : (shape σ')[a]? = some vec.length := by
    rw [hs]
    unfold shape
    rw [List.getElem?_map, ha]
    rfl
  unfold shape at h4
  rw [List.getElem?_map] at h4
  cases hv : σ'[a]? with
  | none => rw [hv] at h4; exact Option.noConfusion h4
  | some vec' =>
    rw [hv] at h4
    have : vec'.length = vec.length := Option.some.inj h4
    exact (valid_iff σ' B).mpr ⟨h1, h2, h3, a, vec', hp, hv, by omega⟩

/-- A buffer on a fresh vector of `W * H` elements is valid in every store of
the shape the allocation left. -/
theorem valid_fresh (σ σ' : Heap) (W H : Int) (hW : 0 ≤ W) (hH : 0 ≤ H)
    (hWH : W * H < 2147483648) (hs : shape σ' = shape (σ ++ [List.replicate (W * H).toNat 0])) :
    valid σ' ⟨some σ.length, W, H⟩ := by
  have hn0 : 0 ≤ W * H := mul_nonneg hW hH
  refine valid_of_shape _ σ' _ hs ((valid_iff _ _).mpr
    ⟨hW, hH, hWH, σ.length, List.replicate (W * H).toNat 0, rfl, ?_, ?_⟩)
  · exact List.getElem?_concat_length σ _
  · simp only [List.length_replicate]
    omega

/-- A successful `make_shared` appends a zeroed vector of the requested length. -/
theorem make_shared_some (σ σ1 : Heap) (n : Int) (a : Nat)
    (h : make_shared σ n = some (σ1, a)) :
    0 ≤ n ∧ σ1 = σ ++ [List.replicate n.toNat 0] ∧ a = σ.length := by
  unfold make_shared at h
  by_cases hn : n < 0
  · rw [if_pos hn] at h; exact Option.noConfusion h
  · rw [if_neg hn] at h
    injection h with h
    injection h with h1 h2
    exact ⟨by omega, h1.symm, h2.symm⟩

theorem put_shape (D S : basic_bitmap) (σ σ' : Heap) (x y : Int)
    (h : D.put σ x y S = some σ') : shape σ' = shape σ := by
  unfold basic_bitmap.put at h
  simp only [Option.bind_eq_bind, Option.pure_def] at h
  obtain ⟨target, _, h1⟩ := Option.bind_eq_some.mp h
  obtain ⟨r, h2, h3⟩ := Option.bind_eq_some.mp h1
  have hr : shape r.1 = shape σ := by
    refine forLoop_pres (fun st : Heap × Int => shape st.1 = shape σ) _ _ _ ?_ (σ, 0) r rfl h2
    intro yy st st' hP hb
    refine forLoop_pres (fun st : Heap × Int => shape st.1 = shape σ) _ _ _ ?_ st st' hP hb
    intro xx t t' hQ hc
    obtain ⟨v, _, k1⟩ := Option.bind_eq_some.mp hc
    obtain ⟨s1, k2, k3⟩ := Option.bind_eq_some.mp k1
    have e : t' = (s1, t.2 + 1) := (Option.some.inj k3).symm
    rw [e]
    show shape s1 = shape σ
    rw [set_shape D t.1 s1 _ v k2, hQ]
  obtain ⟨r1, r2⟩ := r
  have e : σ' = r1 := (Option.some.inj h3).symm
  rw [e]
  exact hr

theorem clear_shape (sizeofT : Nat) (D : basic_bitmap) (σ σ' : Heap) (color : Nat)
    (h : D.clear sizeofT σ color = some σ') : shape σ' = shape σ := by
  unfold basic_bitmap.clear at h
  simp only [Option.bind_eq_bind] at h
  obtain ⟨p, _, h1⟩ := Option.bind_eq_some.mp h
  by_cases hc : sizeofT = 1 ∨ color = 0
  · rw [if_pos hc] at h1
    exact memset_shape sizeofT σ σ' p 0 _ h1
  · rw [if_neg hc] at h1
    refine forLoop_pres (fun s => shape s = shape σ) _ _ _ ?_ σ σ' rfl h1
    intro i s s' hP hb
    rw [store_shape s s' p i _ hb, hP]

/-- A successful `cut` returns a bitmap on a fresh vector of `ww * hh`
elements and changes the length of no vector. -/
theorem cut_shape (B : basic_bitmap) (σ σ' : Heap) (x y ww hh : Int) (D : basic_bitmap)
    (h : B.cut σ x y ww hh = some (σ', D)) :
    D = ⟨some σ.length, ww, hh⟩ ∧
      shape σ' = shape (σ ++ [List.replicate (mul32 ww hh).toNat 0]) := by
  unfold basic_bitmap.cut basic_bitmap.ctor at h
  simp only [Option.bind_eq_bind, Option.pure_def] at h
  obtain ⟨r, h1, h2⟩ := Option.bind_eq_some.mp h
  obtain ⟨r0, k1, k2⟩ := Option.bind_eq_some.mp h1
  obtain ⟨σ0, a⟩ := r0
  obtain ⟨_, rfl, rfl⟩ := make_shared_some σ σ0 _ a k1
  have e : r = (σ ++ [List.replicate (mul32 ww hh).toNat 0], ⟨some σ.length, ww, hh⟩) :=
    (Option.some.inj k2).symm
  subst e
  simp only [] at h2
  obtain ⟨p, _, h3⟩ := Option.bind_eq_some.mp h2
  obtain ⟨σ2, h4, h5⟩ := Option.bind_eq_some.mp h3
  have e2 := Option.some.inj h5
  injection e2 with e3 e4
  subst e3 e4
  refine ⟨rfl, ?_⟩
  refine forLoop_pres (fun s => shape s = shape (σ ++ [List.replicate (mul32 ww hh).toNat 0]))
    _ _ _ ?_ _ σ2 rfl h4
  intro yy s s' hP hb
  refine forLoop_pres (fun s => shape s = shape (σ ++ [List.replicate (mul32 ww hh).toNat 0]))
    _ _ _ ?_ s s' hP hb
  intro xx t t' hQ hc
  obtain ⟨v, _, k3⟩ := Option.bind_eq_some.mp hc
  rw [set_shape _ t t' _ v k3, hQ]

theorem ctor_shape (σ σ' : Heap) (W H : Int) (B : basic_bitmap)
    (h : basic_bitmap.ctor σ W H = some (σ', B)) :
    B = ⟨some σ.length, W, H⟩ ∧
      shape σ' = shape (σ ++ [List.replicate (mul32 W H).toNat 0]) := by
  unfold basic_bitmap.ctor at h
  simp only [Option.bind_eq_bind, Option.pure_def] at h
  obtain ⟨r0, k1, k2⟩ := Option.bind_eq_some.mp h
  obtain ⟨σ0, a⟩ := r0
  obtain ⟨_, rfl, rfl⟩ := make_shared_some σ σ0 _ a k1
  have e := Option.some.inj k2
  injection e with e1 e2
  subst e1 e2
  exact ⟨rfl, rfl⟩

theorem ctorFn_shape {G : Type} (σ σ' : Heap) (W H : Int) (f : Int → Int → G → Nat × G)
    (g g' : G) (B : basic_bitmap) (h : basic_bitmap.ctorFn σ W H f g = some (σ', B, g')) :
    B = ⟨some σ.length, W, H⟩ ∧
      shape σ' = shape (σ ++ [List.replicate (mul32 W H).toNat 0]) := by
  unfold basic_bitmap.ctorFn at h
  simp only [Option.bind_eq_bind, Option.pure_def] at h
  obtain ⟨r0, k1, k2⟩ := Option.bind_eq_some.mp h
  obtain ⟨σ0, a⟩ := r0
  obtain ⟨_, rfl, rfl⟩ := make_shared_some σ σ0 _ a k1
  simp only [] at k2
  obtain ⟨r, h1, h2⟩ := Option.bind_eq_some.mp k2
  obtain ⟨r1, r2⟩ := r
  have e := Option.some.inj h2
  injection e with e1 e2
  injection e2 with e2 e3
  subst e1 e2 e3
  refine ⟨rfl, ?_⟩
  refine forLoop_pres (fun st : Heap × G =>
    shape st.1 = shape (σ ++ [List.replicate (mul32 W H).toNat 0])) _ _ _ ?_ _ (r1, r2) rfl h1
  intro yy st st' hP hb
  refine forLoop_pres (fun st : Heap × G =>
    shape st.1 = shape (σ ++ [List.replicate (mul32 W H).toNat 0])) _ _ _ ?_ st st' hP hb
  intro xx t t' hQ hc
  obtain ⟨s1, k3, k4⟩ := Option.bind_eq_some.mp hc
  have e : t' = (s1, (f xx yy t.2).2) := (Option.some.inj k4).symm
  rw [e]
  show shape s1 = _
  rw [store_shape t.1 s1 _ _ _ k3, hQ]

theorem ctorColor_shape (σ σ' : Heap) (W H : Int) (color : Nat) (B : basic_bitmap)
    (h : basic_bitmap.ctorColor σ W H color = some (σ', B)) :
    B = ⟨some σ.length, W, H⟩ ∧
      shape σ' = shape (σ ++ [List.replicate (mul32 W H).toNat 0]) := by
  unfold basic_bitmap.ctorColor at h
  simp only [Option.bind_eq_bind, Option.pure_def] at h
  obtain ⟨r0, k1, k2⟩ := Option.bind_eq_some.mp h
  obtain ⟨σ0, a⟩ := r0
  obtain ⟨_, rfl, rfl⟩ := make_shared_some σ σ0 _ a k1
  simp only [] at k2
  obtain ⟨vec, h1, h2⟩ := Option.bind_eq_some.mp k2
  have e := Option.some.inj h2
  injection e with e1 e2
  subst e1 e2
  exact ⟨rfl, shape_set _ _ vec _ h1 (by simp)⟩

theorem ctorPtr_shape (sizeofT : Nat) (σ σ' : Heap) (W H : Int) (px : List Nat)
    (B : basic_bitmap) (h : basic_bitmap.ctorPtr sizeofT σ W H px = some (σ', B)) :
    B = ⟨some σ.length, W, H⟩ ∧
      shape σ' = shape (σ ++ [List.replicate (mul32 W H).toNat 0]) := by
  unfold basic_bitmap.ctorPtr at h
  simp only [Option.bind_eq_bind, Option.pure_def] at h
  obtain ⟨r0, k1, k2⟩ := Option.bind_eq_some.mp h
  obtain ⟨σ0, a⟩ := r0
  obtain ⟨_, rfl, rfl⟩ := make_shared_some σ σ0 _ a k1
  simp only [] at k2
  obtain ⟨σ2, h1, h2⟩ := Option.bind_eq_some.mp k2
  have e := Option.some.inj h2
  injection e with e1 e2
  subst e1 e2
  exact ⟨rfl, memcpy_shape sizeofT _ _ _ _ _ _ _ h1⟩

theorem ctorVec_shape (sizeofT : Nat) (σ σ' : Heap) (W H : Int) (data : List Nat)
    (B : basic_bitmap) (h : basic_bitmap.ctorVec sizeofT σ W H data = some (σ', B)) :
    B = ⟨some σ.length, W, H⟩ ∧
      shape σ' = shape (σ ++ [List.replicate (mul32 W H).toNat 0]) :=
  ctorPtr_shape sizeofT σ σ' W H data B h

theorem ctorBytes_shape (sizeofT : Nat) (σ σ' : Heap) (W H n : Int) (px : List Nat)
    (B : basic_bitmap) (h : basic_bitmap.ctorBytes sizeofT σ W H n px = some (σ', B)) :
    B = ⟨some σ.length, W, H⟩ ∧
      shape σ' = shape (σ ++ [List.replicate (mul32 W H).toNat 0]) := by
  unfold basic_bitmap.ctorBytes at h
  simp only [Option.bind_eq_bind, Option.pure_def] at h
  obtain ⟨r0, k1, k2⟩ := Option.bind_eq_some.mp h
  obtain ⟨σ0, a⟩ := r0
  obtain ⟨_, rfl, rfl⟩ := make_shared_some σ σ0 _ a k1
  simp only [] at k2
  obtain ⟨σ2, h1, h2⟩ := Option.bind_eq_some.mp k2
  have e := Option.some.inj h2
  injection e with e1 e2
  subst e1 e2
  refine ⟨rfl, ?_⟩
  refine forLoop_pres (fun s => shape s = shape (σ ++ [List.replicate (mul32 W H).toNat 0]))
    _ _ _ ?_ _ σ2 rfl h1
  intro i s s' hP hb
  obtain ⟨b0, _, c1⟩ := Option.bind_eq_some.mp hb
  obtain ⟨b1, _, c2⟩ := Option.bind_eq_some.mp c1
  obtain ⟨b2, _, c3⟩ := Option.bind_eq_some.mp c2
  rw [store_shape s s' _ _ _ c3, hP]

theorem clone_shape (sizeofT : Nat) (B C : basic_bitmap) (σ σ' : Heap)
    (h : B.clone sizeofT σ = some (σ', C)) :
    C = ⟨some σ.length, B.w, B.h⟩ ∧
      shape σ' = shape (σ ++ [List.replicate (mul32 B.w B.h).toNat 0]) := by
  unfold basic_bitmap.clone at h
  simp only [Option.bind_eq_bind] at h
  obtain ⟨p, _, h1⟩ := Option.bind_eq_some.mp h
  obtain ⟨px, _, h2⟩ := Option.bind_eq_some.mp h1
  exact ctorPtr_shape sizeofT σ σ' B.w B.h px C h2

theorem flip_shape (sizeofT : Nat) (B R : basic_bitmap) (σ σ' : Heap)
    (h : B.flip sizeofT σ = some (σ', R)) :
    R = ⟨some σ.length, B.w, B.h⟩ ∧
      shape σ' = shape (σ ++ [List.replicate (mul32 B.w B.h).toNat 0]) := by
  unfold basic_bitmap.flip at h
  simp only [Option.bind_eq_bind, Option.pure_def] at h
  obtain ⟨r0, k1, k2⟩ := Option.bind_eq_some.mp h
  obtain ⟨σ0, R0⟩ := r0
  obtain ⟨rfl, hs0⟩ := ctor_shape σ σ0 B.w B.h R0 k1
  simp only [] at k2
  obtain ⟨target, _, h1⟩ := Option.bind_eq_some.mp k2
  obtain ⟨σ2, h2, h3⟩ := Option.bind_eq_some.mp h1
  have e := Option.some.inj h3
  injection e with e1 e2
  subst e1 e2
  refine ⟨rfl, ?_⟩
  rw [← hs0]
  refine forLoop_pres (fun s => shape s = shape σ0) _ _ _ ?_ σ0 σ2 rfl h2
  intro yy s s' hP hb
  obtain ⟨p, _, c1⟩ := Option.bind_eq_some.mp hb
  obtain ⟨src, _, c2⟩ := Option.bind_eq_some.mp c1
  rw [memcpy_shape sizeofT s s' _ _ _ _ _ c2, hP]

/-- Growth of the store by one vector, then any changes that keep its shape,
leave a valid buffer valid. -/
theorem valid_after_alloc (σ σ' : Heap) (vec : Vec) (A : basic_bitmap)
    (hs : shape σ' = shape (σ ++ [vec])) (hA : valid σ A) : valid σ' A :=
  valid_of_shape _ σ' A hs (valid_append σ [vec] A hA)

/-! ## put -/

theorem set_self (σ : Heap) (a : Nat) (vec : Vec) (ha : σ[a]? = some vec) : σ.set a vec = σ := by
  apply List.ext_getElem?
  intro k
  by_cases hk : a = k
  · subst hk
    rw [List.getElem?_set_self (getElem?_lt_length σ a vec ha), ha]
  · rw [List.getElem?_set_ne hk]

theorem store_set (σ : Heap) (a : Nat) (vec : Vec) (i : Int) (c : Nat) (ha : a < σ.length)
    (h0 : 0 ≤ i) (h1 : i < vec.length) :
    store (σ.set a vec) a i c = some (σ.set a (vec.set i.toNat c)) := by
  rw [store_eq (σ.set a vec) a vec i c (List.getElem?_set_self ha) h0 h1, List.set_set]

/-- A source that shares the vector of the destination and fits inside it at
`(x, y)` covers it. -/
theorem alias_dims (W H sw sh x y : Int) (hsw : 0 < sw) (hsh : 0 < sh) (hx : 0 ≤ x)
    (hy : 0 ≤ y) (hxw : x + sw ≤ W) (hyh : y + sh ≤ H) (heq : sw * sh = W * H) :
    sw = W ∧ sh = H ∧ x = 0 ∧ y = 0 := by
  have h1 : sw * sh ≤ W * sh := mul_le_mul_of_nonneg_right (by omega) (by omega)
  have h2 : W * sh ≤ W * H := mul_le_mul_of_nonneg_left (by omega) (by omega)
  have hswW : sw = W := by
    by_contra hne
    have h3 : sw * sh ≤ (W - 1) * sh := mul_le_mul_of_nonneg_right (by omega) (by omega)
    have h4 : (W - 1) * sh = W * sh - sh := by ring
    omega
  subst hswW
  have hshH : sh = H := by
    by_contra hne
    have h3 : sw * sh ≤ sw * (H - 1) := mul_le_mul_of_nonneg_left (by omega) (by omega)
    have h4 : sw * (H - 1) = sw * H - sw := by ring
    omega
  exact ⟨rfl, hshH, by omega, by omega⟩

/-- Cells of one column in different rows have different indices. -/
theorem row_index_ne (W x r r' : Int) (hW : 0 < W) (hne : r ≠ r') :
    r * W + x ≠ r' * W + x := by
  intro h
  rcases lt_or_gt_of_ne hne with hlt | hgt
  · have h1 : (r + 1) * W ≤ r' * W := mul_le_mul_of_nonneg_right (by omega) (by omega)
    have h2 : (r + 1) * W = r * W + W := by ring
    omega
  · have h1 : (r' + 1) * W ≤ r * W := mul_le_mul_of_nonneg_right (by omega) (by omega)
    have h2 : (r' + 1) * W = r' * W + W := by ring
    omega

theorem put_inner_step (σ : Heap) (D S : basic_bitmap) (aD aS : Nat) (dvec0 svec0 : Vec)
    (x y : Int) (hpD : D.pixels = some aD)
    (haD : σ[aD]? = some dvec0) (haS : σ[aS]? = some svec0)
    (hlD : (dvec0.length : Int) = D.w * D.h) (hlS : (svec0.length : Int) = S.w * S.h)
    (hWH : D.w * D.h < 2147483648)
    (hx : 0 ≤ x) (hy : 0 ≤ y) (hxw : x + S.w ≤ D.w) (hyh : y + S.h ≤ D.h)
    (j i : Int) (hj0 : 0 ≤ j) (hj : j < S.h) (hi0 : 0 ≤ i) (hi : i < S.w)
    (st : Heap × Int) (hs : putInv σ aD dvec0 svec0 D.w x y S.w j i st) :
    ∃ st', ((load st.1 aS st.2).bind fun v =>
        (D.set st.1 (add32 (mul32 (y + j) D.w) x) v).bind fun s1 => some (s1, st.2 + 1))
          = some st' ∧
      putInv σ aD dvec0 svec0 D.w x y S.w j (i + 1) st' := by
  obtain ⟨s, t⟩ := st
  obtain ⟨dvec, h1, hdl, ht, F1, F2, F3⟩ := hs
  simp only [] at h1 ht
  subst h1 ht
  have haDlt := getElem?_lt_length σ aD dvec0 haD
  obtain ⟨hW31, hH31⟩ := side_bounds D.w D.h (by omega) (by omega) hWH
  obtain ⟨w1, w2, w3⟩ := index_bounds D.w D.h x (y + j) hx (by omega) (by omega) (by omega)
  obtain ⟨r1, r2, r3⟩ := index_bounds S.w S.h i j hi0 hi hj0 hj
  have e1 : mul32 (y + j) D.w = (y + j) * D.w := mul32_eq _ _ (by omega) (by omega)
  have e2 : add32 ((y + j) * D.w) x = (y + j) * D.w + x := add32_eq _ _ (by omega) (by omega)
  have hread : load (σ.set aD dvec) aS (j * S.w + i) = loadArr svec0 (j * S.w + i) := by
    by_cases hal : aD = aS
    · subst hal
      have hvec : svec0 = dvec0 := by
        rw [haD] at haS
        exact (Option.some.inj haS).symm
      subst hvec
      obtain ⟨a1, a2, a3, a4⟩ := alias_dims D.w D.h S.w S.h x y (by omega) (by omega) hx hy
        hxw hyh (by omega)
      rw [load_set_same σ aD dvec _ haDlt]
      refine F1 _ ?_ ?_
      · intro _ j' hj'0 hj'
        have k1 : (j' + 1) * D.w ≤ j * D.w := mul_le_mul_of_nonneg_right (by omega) (by omega)
        have k2 : (j' + 1) * D.w = j' * D.w + D.w := by ring
        rw [a1, a3, a4, zero_add]
        omega
      · by_cases hi00 : i = 0
        · exact Or.inl hi00
        · right
          rw [a1, a3, a4, zero_add]
          omega
    · rw [load_set_ne σ aD aS dvec _ hal, load_of_getElem? σ aS svec0 _ haS]
  obtain ⟨c, hc⟩ := loadArr_isSome svec0 (j * S.w + i) (by omega) (by omega)
  refine ⟨(σ.set aD (dvec.set ((y + j) * D.w + x).toNat c), j * S.w + i + 1), ?_,
    dvec.set ((y + j) * D.w + x).toNat c, rfl, by simp [hdl], by ring, ?_, ?_, ?_⟩
  · simp only [hread, hc, Option.some_bind, e1, e2, basic_bitmap.set, hpD, Option.bind_eq_bind]
    rw [store_set σ aD dvec _ c haDlt (by omega) (by omega)]
    rfl
  · intro p hrows hcur
    have hp : p ≠ (y + j) * D.w + x := by
      rcases hcur with h | h
      · omega
      · exact h
    rw [loadArr_set dvec _ p c (by omega) (by omega), if_neg hp]
    exact F1 p hrows (Or.inr hp)
  · intro j' hj'0 hj' hsw
    rw [loadArr_set dvec _ _ c (by omega) (by omega),
      if_neg (row_index_ne D.w x (y + j') (y + j) (by omega) (by omega))]
    exact F2 j' hj'0 hj' hsw
  · intro _
    rw [loadArr_set dvec _ _ c (by omega) (by omega), if_pos rfl, ← hc]
    congr 1
    ring

theorem forLoop_id {S : Type} (lo hi : Int) (s : S) :
    forLoop lo hi (fun _ s => some s) s = some s := by
  unfold forLoop
  generalize forRange lo hi = xs
  induction xs with
  | nil => rfl
  | cons x xs ih => simpa [List.foldlM_cons] using ih

theorem putInv_row_end (σ : Heap) (aD : Nat) (dvec0 svec0 : Vec) (W x y sw j : Int)
    (st : Heap × Int) (hj0 : 0 ≤ j) (hsw0 : 0 ≤ sw)
    (h : putInv σ aD dvec0 svec0 W x y sw j sw st) :
    putInv σ aD dvec0 svec0 W x y sw (j + 1) 0 st := by
  obtain ⟨dvec, h1, hdl, ht, F1, F2, F3⟩ := h
  refine ⟨dvec, h1, hdl, by rw [ht]; ring, ?_, ?_, ?_⟩
  · intro p hrows _
    refine F1 p (fun hsw j' h0 hlt => hrows hsw j' h0 (by omega)) ?_
    by_cases hsw : 0 < sw
    · exact Or.inr (hrows hsw j hj0 (by omega))
    · exact Or.inl (by omega)
  · intro j' hj'0 hj' hsw
    by_cases hlt : j' < j
    · exact F2 j' hj'0 hlt hsw
    · have e : j' = j := by omega
      rw [e]
      exact F3 hsw
  · intro h
    omega

/-- The effect of `put` for valid destination and source, the source placed
inside the destination: the call succeeds and replaces the vector of the
destination by one of the same length, in which the cell `(x, y + j)` holds
the last pixel of source row `j` and every other element is as before. -/
theorem put_spec (σ : Heap) (D S : basic_bitmap) (x y : Int) (hD : valid σ D)
    (hS : valid σ S) (hx : 0 ≤ x) (hy : 0 ≤ y) (hxw : x + S.w ≤ D.w) (hyh : y + S.h ≤ D.h) :
    ∃ (aD aS : Nat) (dvec0 svec0 dvec : Vec),
      D.pixels = some aD ∧ σ[aD]? = some dvec0 ∧ S.pixels = some aS ∧ σ[aS]? = some svec0 ∧
      D.put σ x y S = some (σ.set aD dvec) ∧ dvec.length = dvec0.length ∧
      (∀ p : Int, (0 < S.w → ∀ j : Int, 0 ≤ j → j < S.h → p ≠ (y + j) * D.w + x) →
        loadArr dvec p = loadArr dvec0 p) ∧
      (∀ j : Int, 0 ≤ j → j < S.h → 0 < S.w →
        loadArr dvec ((y + j) * D.w + x) = loadArr svec0 (j * S.w + S.w - 1)) := by
  obtain ⟨hW0, hH0, hWH, aD, dvec0, hpD, haD, hlD⟩ := (valid_iff σ D).mp hD
  obtain ⟨hsw0, hsh0, -, aS, svec0, hpS, haS, hlS⟩ := (valid_iff σ S).mp hS
  have haSlt := getElem?_lt_length σ aS svec0 haS
  have hdata : S.data σ = some aS := by
    unfold basic_bitmap.data
    rw [hpS]
    simp only [haSlt, if_true]
  by_cases hWz : D.w = 0
  · -- an empty destination row: the inner loop has no round
    have hsw : S.w = 0 := by omega
    have hxz : x = 0 := by omega
    have he : add32 0 0 = 0 := by decide
    refine ⟨aD, aS, dvec0, svec0, dvec0, hpD, haD, hpS, haS, ?_, rfl, fun p _ => rfl, ?_⟩
    · unfold basic_bitmap.put
      simp only [hdata, hsw, hxz, he, forLoop_empty, forLoop_id, Option.bind_eq_bind,
        Option.some_bind, Option.pure_def, set_self σ aD dvec0 haD]
    · intro j _ _ h
      omega
  · have hH31 : D.h < 2147483648 := by
      by_cases hHz : D.h = 0
      · omega
      · exact (side_bounds D.w D.h (by omega) (by omega) hWH).2
    have eh : add32 S.h y = S.h + y := add32_eq _ _ (by omega) (by omega)
    obtain ⟨st', hloop, dvec, h1, hdl, -, F1, F2, -⟩ := forLoop_inv
      (fun yy st => putInv σ aD dvec0 svec0 D.w x y S.w (yy - y) 0 st) y (S.h + y)
      (fun yy st => forLoop x (add32 S.w x) (fun _xx st =>
        (load st.1 aS st.2).bind fun v =>
          (D.set st.1 (add32 (mul32 yy D.w) x) v).bind fun s1 => some (s1, st.2 + 1)) st)
      (σ, 0) (by omega)
      ⟨dvec0, (set_self σ aD dvec0 haD).symm, rfl, by simp, fun p _ _ => rfl,
        fun j' h0 h1 _ => by omega, fun h => by omega⟩
      (fun yy st hyy0 hyy hs => by
        obtain ⟨hW31, -⟩ := side_bounds D.w D.h (by omega) (by omega) hWH
        have ew : add32 S.w x = S.w + x := add32_eq _ _ (by omega) (by omega)
        have := forLoop_inv
          (fun xx st => putInv σ aD dvec0 svec0 D.w x y S.w (yy - y) (xx - x) st) x (S.w + x)
          (fun _xx st => (load st.1 aS st.2).bind fun v =>
            (D.set st.1 (add32 (mul32 yy D.w) x) v).bind fun s1 => some (s1, st.2 + 1)) st
          (by omega) (by beta_reduce; rw [sub_self]; exact hs)
          (fun xx st hxx0 hxx hs => by
            have hstep := put_inner_step σ D S aD aS dvec0 svec0 x y hpD haD haS hlD hlS hWH
              hx hy hxw hyh (yy - y) (xx - x) (by omega) (by omega) (by omega) (by omega) st hs
            have e1 : y + (yy - y) = yy := by ring
            have e2 : xx - x + 1 = xx + 1 - x := by ring
            rw [e1, e2] at hstep
            exact hstep)
        obtain ⟨st', hl, hq⟩ := this
        refine ⟨st', by rw [ew]; exact hl, ?_⟩
        have e3 : S.w + x - x = S.w := by ring
        have e4 : yy + 1 - y = yy - y + 1 := by ring
        beta_reduce at hq ⊢
        rw [e3] at hq
        rw [e4]
        exact putInv_row_end σ aD dvec0 svec0 D.w x y S.w (yy - y) st' (by omega) hsw0 hq)
    have e5 : S.h + y - y = S.h := by ring
    rw [e5] at F1 F2
    obtain ⟨s', t'⟩ := st'
    simp only [] at h1
    subst h1
    refine ⟨aD, aS, dvec0, svec0, dvec, hpD, haD, hpS, haS, ?_, hdl,
      fun p hp => F1 p hp (Or.inl rfl), F2⟩
    unfold basic_bitmap.put
    simp only [hdata, eh, Option.bind_eq_bind, Option.some_bind, Option.pure_def] at hloop ⊢
    rw [hloop]
    rfl

/-! ## Theorems -/

/-- C2, evaluated on the 2 by 1 destination `0 0` (address 0) and the 2 by 1
source `1 2` (address 1) with `x = y = 0`: `put` writes both source pixels to
column `x`, so the destination ends as `2 0`; its element at `(x + 1, y)` is
`0` while the source element at `(1, 0)` is `2`. -/
theorem put_writes_single_column :
    basic_bitmap.put ⟨some 0, 2, 1⟩ [[0, 0], [1, 2]] 0 0 ⟨some 1, 2, 1⟩
      = some [[2, 0], [1, 2]] ∧
    basic_bitmap.get ⟨some 0, 2, 1⟩ [[2, 0], [1, 2]] ((0 + 1) + (0 + 0) * 2) = some 0 ∧
    basic_bitmap.get ⟨some 1, 2, 1⟩ [[0, 0], [1, 2]] (1 + 0 * 2) = some 2 := by
  decide

/-- C3, evaluated on the 1 by 2 buffer `1 / 2` of 4-byte elements: the bitmap
`flip` returns has the same width and height but holds `0 / 0`; its row 0 is
not row 1 of the buffer as it was before the call, which held `2`. -/
theorem flip_returns_zeros :
    ∃ σ' R, basic_bitmap.flip 4 ⟨some 0, 1, 2⟩ [[1, 2]] = some (σ', R) ∧
      R.width = 1 ∧ R.height = 2 ∧
      R.get σ' (0 + 0 * 1) = some 0 ∧
      basic_bitmap.get ⟨some 0, 1, 2⟩ [[1, 2]] (0 + (2 - 1 - 0) * 1) = some 2 :=
  ⟨[[0, 0], [0, 0]], ⟨some 1, 1, 2⟩, by decide⟩

/-- C4, evaluated on the 1 by 2 buffer `1 / 2` of 4-byte elements: the
buffer held `1` and `2` before `flip`; after the call, read in the store the
call leaves, its own elements are `0` and `0`. -/
theorem flip_overwrites_receiver :
    ∃ σ' R, basic_bitmap.flip 4 ⟨some 0, 1, 2⟩ [[1, 2]] = some (σ', R) ∧
      basic_bitmap.get ⟨some 0, 1, 2⟩ [[1, 2]] 0 = some 1 ∧
      basic_bitmap.get ⟨some 0, 1, 2⟩ [[1, 2]] 1 = some 2 ∧
      basic_bitmap.get ⟨some 0, 1, 2⟩ σ' 0 = some 0 ∧
      basic_bitmap.get ⟨some 0, 1, 2⟩ σ' 1 = some 0 :=
  ⟨[[0, 0], [0, 0]], ⟨some 1, 1, 2⟩, by decide⟩

/-- C5, evaluated on the 1 by 2 buffer `1 / 2` of 4-byte elements: the result
of `flip` applied twice has width 1 and height 2 and holds `0 / 0`, not
`1 / 2`. -/
theorem flip_twice_returns_zeros :
    ∃ σ'' R', (basic_bitmap.flip 4 ⟨some 0, 1, 2⟩ [[1, 2]]).bind
        (fun r => basic_bitmap.flip 4 r.2 r.1) = some (σ'', R') ∧
      R'.width = 1 ∧ R'.height = 2 ∧
      R'.get σ'' 0 = some 0 ∧ R'.get σ'' 1 = some 0 ∧
      basic_bitmap.get ⟨some 0, 1, 2⟩ [[1, 2]] 0 = some 1 ∧
      basic_bitmap.get ⟨some 0, 1, 2⟩ [[1, 2]] 1 = some 2 :=
  ⟨[[0, 0], [0, 0], [0, 0]], ⟨some 2, 1, 2⟩, by decide⟩

/-- C6, evaluated on the 1 by 1 buffer `7` of 1-byte elements and the colour
`5`: `clear` takes the byte-fill path, which fills with `0`, and the element
ends as `0`; on the 4-byte element type the same call leaves `5`. -/
theorem clear_byte_fill_ignores_color :
    basic_bitmap.clear 1 ⟨some 0, 1, 1⟩ [[7]] 5 = some [[0]] ∧
    basic_bitmap.clear 4 ⟨some 0, 1, 1⟩ [[7]] 5 = some [[5]] := by
  decide

/-- C8, evaluated on the 1 by 3 buffer `1 / 2 / 3` and the tile size 2 by 2
(the buffer is narrower than one tile): `begin()` differs from `end()`, and
the enumeration yields one tile, `cut(0, 0, 2, 2)`, which holds `1 2 / 2 3`. -/
theorem split_small_buffer_yields_tile :
    ((basic_bitmap.split ⟨some 0, 1, 3⟩ 2 2).begin.ne
      (basic_bitmap.split ⟨some 0, 1, 3⟩ 2 2).end) = true ∧
    (basic_bitmap.split ⟨some 0, 1, 3⟩ 2 2).tiles 3 [[1, 2, 3]]
      = some ([[1, 2, 3], [1, 2, 2, 3]], [⟨some 1, 2, 2⟩]) := by
  decide

/-- C10, as amended: the 4 by 4 buffer built by the generator
`f(x, y) = x + 16 * y`, then `cut(1, 1, 2, 2)`, gives a 2 by 2 bitmap whose
elements in row-major order are `17, 18, 33, 34`. -/
theorem generator_then_cut :
    (basic_bitmap.ctorFn [] 4 4 (fun x y (g : Unit) => ((x + 16 * y).toNat, g)) ()).bind
        (fun r => r.2.1.cut r.1 1 1 2 2)
      = some ([[0, 1, 2, 3, 16, 17, 18, 19, 32, 33, 34, 35, 48, 49, 50, 51], [17, 18, 33, 34]],
          ⟨some 1, 2, 2⟩) := by
  decide

/-- C10, as stated, fails: the elements of that 2 by 2 bitmap are not
`17, 18, 21, 22`; the third one, at `(0, 1)`, is `f(1, 2) = 33`, not `21`. -/
theorem generator_then_cut_not_21_22 :
    ¬ ∃ σ' D, (basic_bitmap.ctorFn [] 4 4 (fun x y (g : Unit) => ((x + 16 * y).toNat, g)) ()).bind
        (fun r => r.2.1.cut r.1 1 1 2 2) = some (σ', D) ∧
      D.get σ' 0 = some 17 ∧ D.get σ' 1 = some 18 ∧ D.get σ' 2 = some 21 ∧
      D.get σ' 3 = some 22 := by
  rintro ⟨σ', D, h, -, -, h2, -⟩
  have e : (basic_bitmap.ctorFn [] 4 4 (fun x y (g : Unit) => ((x + 16 * y).toNat, g)) ()).bind
        (fun r => r.2.1.cut r.1 1 1 2 2)
      = some ([[0, 1, 2, 3, 16, 17, 18, 19, 32, 33, 34, 35, 48, 49, 50, 51], [17, 18, 33, 34]],
          ⟨some 1, 2, 2⟩) := by decide
  rw [e] at h
  injection h with h
  injection h with h3 h4
  subst h3 h4
  revert h2
  decide

/-- C9, as amended: for the 4-byte element type, `W, H ≥ 0` with `W * H`
within `int32_t`, and a byte array `px` (entries below 256) of length at
least `3 * W * H`, the buffer constructed from `(W, H, 3, px)` has width `W`,
height `H`, and element `i` equal to
`0xFF000000 | px[3i] | (px[3i+1] << 8) | (px[3i+2] << 16)` for every
`i < W * H`. -/
theorem ctorBytes_packs (σ : Heap) (W H : Int) (px : List Nat) (hW : 0 ≤ W) (hH : 0 ≤ H)
    (hWH : W * H < 2147483648) (hlen : 3 * (W * H) ≤ px.length) (hbytes : ∀ b ∈ px, b < 256) :
    ∃ σ' D, basic_bitmap.ctorBytes 4 σ W H 3 px = some (σ', D) ∧ D.width = W ∧ D.height = H ∧
      ∀ i : Nat, (i : Int) < W * H →
        ∃ r g b, px[3 * i]? = some r ∧ px[3 * i + 1]? = some g ∧ px[3 * i + 2]? = some b ∧
          D.get σ' i = some (0xFF000000 ||| r ||| (g <<< 8) ||| (b <<< 16)) := by
  obtain ⟨v, hctor, _, hcells⟩ := ctorBytes_spec 4 σ W H 3 px hW hH hWH hlen
  refine ⟨_, _, hctor, rfl, rfl, ?_⟩
  intro i hi
  have h0 : 3 * i < px.length := by omega
  have h1 : 3 * i + 1 < px.length := by omega
  have h2 : 3 * i + 2 < px.length := by omega
  refine ⟨px[3 * i], px[3 * i + 1], px[3 * i + 2], List.getElem?_eq_getElem h0,
    List.getElem?_eq_getElem h1, List.getElem?_eq_getElem h2, ?_⟩
  obtain ⟨c, hc1, hc2⟩ := hcells i (by omega) hi
  simp only [basic_bitmap.get, Option.bind_eq_bind, Option.some_bind]
  rw [load_append_last, hc2, ← hc1]
  have e0 : ((i : Int) * 3).toNat = 3 * i := by omega
  have e1 : ((i : Int) * 3 + 1).toNat = 3 * i + 1 := by omega
  have e2 : ((i : Int) * 3 + 2).toNat = 3 * i + 2 := by omega
  have n0 : ¬ ((i : Int) * 3 < 0) := by omega
  have n1 : ¬ ((i : Int) * 3 + 1 < 0) := by omega
  have n2 : ¬ ((i : Int) * 3 + 2 < 0) := by omega
  simp only [packedAt, loadArr, n0, n1, n2, if_false, e0, e1, e2, List.getElem?_eq_getElem h0,
    List.getElem?_eq_getElem h1, List.getElem?_eq_getElem h2, Option.bind_eq_bind,
    Option.some_bind]
  have hlt := pack_lt px[3 * i] px[3 * i + 1] px[3 * i + 2]
    (hbytes _ (List.getElem_mem _)) (hbytes _ (List.getElem_mem _)) (hbytes _ (List.getElem_mem _))
  show some (toT 4 _) = _
  unfold toT
  rw [Nat.mod_eq_of_lt hlt]

/-- C9 as amended, at the 1 by 1 buffer built from the bytes `10, 20, 30`,
whose one element is `0xFF1E140A`. -/
theorem ctorBytes_packs_witness :
    (∃ σ' D, basic_bitmap.ctorBytes 4 [] 1 1 3 [10, 20, 30] = some (σ', D) ∧
      D.width = 1 ∧ D.height = 1 ∧
      ∀ i : Nat, (i : Int) < 1 * 1 →
        ∃ r g b, [10, 20, 30][3 * i]? = some r ∧ [10, 20, 30][3 * i + 1]? = some g ∧
          [10, 20, 30][3 * i + 2]? = some b ∧
          D.get σ' i = some (0xFF000000 ||| r ||| (g <<< 8) ||| (b <<< 16))) ∧
    basic_bitmap.ctorBytes 4 [] 1 1 3 [10, 20, 30] = some ([[0xFF1E140A]], ⟨some 0, 1, 1⟩) :=
  ⟨ctorBytes_packs [] 1 1 [10, 20, 30] (by decide) (by decide) (by decide) (by decide)
    (by decide), by decide⟩

/-- C9, as stated, fails at `W = H = 65536` with a byte array of `3 * W * H`
zero bytes: the constructed buffer has width and height 65536 and an empty
vector, so it has no element 0, let alone one equal to the packed pixel 0. -/
theorem ctorBytes_overflow :
    3 * 65536 * 65536 ≤ (List.replicate (3 * 65536 * 65536) 0).length ∧
    (∀ b ∈ List.replicate (3 * 65536 * 65536) 0, b < 256) ∧
    basic_bitmap.ctorBytes 4 [] 65536 65536 3 (List.replicate (3 * 65536 * 65536) 0)
      = some ([[]], ⟨some 0, 65536, 65536⟩) ∧
    ¬ ∃ σ' D, basic_bitmap.ctorBytes 4 [] 65536 65536 3 (List.replicate (3 * 65536 * 65536) 0)
        = some (σ', D) ∧
      ∀ i : Nat, (i : Int) < 65536 * 65536 → ∃ c, D.get σ' i = some c := by
  refine ⟨?_, ?_, ctorBytes_65536 4 [] 3 _, ?_⟩
  · rw [List.length_replicate]
  · intro b hb
    rw [List.eq_of_mem_replicate hb]
    decide
  · rintro ⟨σ', D, hctor, hall⟩
    rw [ctorBytes_65536 4 [] 3 _] at hctor
    injection hctor with hctor
    injection hctor with h1 h2
    subst h1 h2
    obtain ⟨c, hc⟩ := hall 0 (by decide)
    have hnone : basic_bitmap.get ⟨some 0, 65536, 65536⟩ [[]] ((0 : Nat) : Int) = none := by
      decide
    exact Option.noConfusion (hnone.symm.trans hc)

/-- C7: for a valid buffer `B` and a tile size with `0 < tw ≤ B.w` and
`0 < th ≤ B.h`, the enumeration of `B.split(tw, th)` from `begin()` until the
iterator equals `end()` yields exactly `(B.w div tw) * (B.h div th)` tiles;
they are the results of `B.cut((k mod nx) * tw, (k div nx) * th, tw, th)` for
`k = 0, 1, ...` in that order, `nx = B.w div tw`; each tile lies inside `B`,
has width `tw` and height `th`, and holds its rectangle of `B`. -/
theorem split_enumerates_tiles (σ : Heap) (B : basic_bitmap) (tw th : Int) (fuel : Nat)
    (hB : valid σ B) (htw : 0 < tw) (htwW : tw ≤ B.w) (hth : 0 < th) (hthH : th ≤ B.h)
    (hfuel : (B.w / tw) * (B.h / th) < fuel) :
    ∃ σ' tiles, (B.split tw th).tiles fuel σ = some (σ', tiles) ∧
      (tiles.length : Int) = (B.w / tw) * (B.h / th) ∧
      cutEach B tw th σ (List.map
        (fun k : Nat => (((k : Int) % (B.w / tw)) * tw, ((k : Int) / (B.w / tw)) * th))
        (List.range tiles.length)) = some (σ', tiles) ∧
      ∀ k (hk : k < tiles.length),
        0 ≤ ((k : Int) % (B.w / tw)) * tw ∧ ((k : Int) % (B.w / tw)) * tw + tw ≤ B.w ∧
        0 ≤ ((k : Int) / (B.w / tw)) * th ∧ ((k : Int) / (B.w / tw)) * th + th ≤ B.h ∧
        tiles[k].width = tw ∧ tiles[k].height = th ∧
        ∀ i j : Int, 0 ≤ i → i < tw → 0 ≤ j → j < th →
          ∃ c, tiles[k].get σ' (i + j * tw) = some c ∧
            B.get σ (((k : Int) % (B.w / tw)) * tw + i
              + (((k : Int) / (B.w / tw)) * th + j) * B.w) = some c := by
  obtain ⟨hW0, hH0, hWH, -⟩ := (valid_iff σ B).mp hB
  obtain ⟨hW, hH⟩ := side_bounds B.w B.h (by omega) (by omega) hWH
  obtain ⟨x1, -, -⟩ := tile_count_bounds B.w tw htw htwW
  obtain ⟨y1, -, -⟩ := tile_count_bounds B.h th hth hthH
  have hn1 : 1 ≤ (B.w / tw) * (B.h / th) := by
    have := mul_le_mul x1 y1 (by omega) (by omega)
    omega
  obtain ⟨m, hm⟩ : ∃ m : Nat, (m : Int) = (B.w / tw) * (B.h / th) :=
    ⟨((B.w / tw) * (B.h / th)).toNat, by omega⟩
  have hbegin : (B.split tw th).begin = cursorAt B tw th 0 := by
    unfold cursorAt tileOrigin
    rw [if_pos (by omega)]
    simp [basic_bitmap.split, splitter.begin]
  have hlist : List.map (fun i : Nat => tileOrigin B.w tw th (0 + (i : Int))) (List.range m)
      = List.map (fun k : Nat => (((k : Int) % (B.w / tw)) * tw, ((k : Int) / (B.w / tw)) * th))
          (List.range m) := by
    apply List.map_congr_left
    intro i _
    simp [tileOrigin]
  have henum : (B.split tw th).tiles fuel σ = cutEach B tw th σ (List.map
      (fun k : Nat => (((k : Int) % (B.w / tw)) * tw, ((k : Int) / (B.w / tw)) * th))
      (List.range m)) := by
    rw [← hlist, ← enumerate_eq_cutEach B tw th hW hH htw htwW hth hthH m 0 fuel σ (by omega)
      (by omega) (by omega), ← hbegin]
    rfl
  have horigin : ∀ k : Nat, k < m →
      0 ≤ ((k : Int) % (B.w / tw)) * tw ∧ ((k : Int) % (B.w / tw)) * tw + tw ≤ B.w ∧
      0 ≤ ((k : Int) / (B.w / tw)) * th ∧ ((k : Int) / (B.w / tw)) * th + th ≤ B.h :=
    fun k hk => origin_bounds B.w B.h tw th k htw htwW hth hthH (by omega) (by omega)
  obtain ⟨τ, ts, hcut, hlen, htiles⟩ := cutEach_spec B tw th (by omega) (by omega)
    (List.map (fun k : Nat => (((k : Int) % (B.w / tw)) * tw, ((k : Int) / (B.w / tw)) * th))
      (List.range m)) σ hB
    (fun p hp => by
      obtain ⟨k, hk, rfl⟩ := List.mem_map.mp hp
      exact horigin k (List.mem_range.mp hk))
  have hlen' : ts.length = m := by simpa using hlen
  refine ⟨σ ++ τ, ts, by rw [henum, hcut], by omega, by rw [hlen', hcut], ?_⟩
  intro k hk
  obtain ⟨o1, o2, o3, o4⟩ := horigin k (by omega)
  obtain ⟨t, ht, hw, hh, hcell⟩ := htiles k _ (by
    rw [List.getElem?_map, List.getElem?_range (by omega)]
    rfl)
  have htk : ts[k] = t := by
    rw [List.getElem?_eq_getElem hk] at ht
    exact Option.some.inj ht
  rw [htk]
  exact ⟨o1, o2, o3, o4, hw, hh, hcell⟩

/-- C7, at the 3 by 2 buffer `1 2 3 / 4 5 6` and the tile size 2 by 1: two
tiles, `1 2` and `4 5`; the strip of width 1 on the right produces none. -/
theorem split_enumerates_tiles_witness :
    (∃ σ' tiles, (basic_bitmap.split ⟨some 0, 3, 2⟩ 2 1).tiles 3 [[1, 2, 3, 4, 5, 6]]
        = some (σ', tiles) ∧
      (tiles.length : Int) = (3 / 2) * (2 / 1) ∧
      cutEach ⟨some 0, 3, 2⟩ 2 1 [[1, 2, 3, 4, 5, 6]] (List.map
        (fun k : Nat => (((k : Int) % (3 / 2)) * 2, ((k : Int) / (3 / 2)) * 1))
        (List.range tiles.length)) = some (σ', tiles) ∧
      ∀ k (hk : k < tiles.length),
        0 ≤ ((k : Int) % (3 / 2)) * 2 ∧ ((k : Int) % (3 / 2)) * 2 + 2 ≤ 3 ∧
        0 ≤ ((k : Int) / (3 / 2)) * 1 ∧ ((k : Int) / (3 / 2)) * 1 + 1 ≤ 2 ∧
        tiles[k].width = 2 ∧ tiles[k].height = 1 ∧
        ∀ i j : Int, 0 ≤ i → i < 2 → 0 ≤ j → j < 1 →
          ∃ c, tiles[k].get σ' (i + j * 2) = some c ∧
            basic_bitmap.get ⟨some 0, 3, 2⟩ [[1, 2, 3, 4, 5, 6]] (((k : Int) % (3 / 2)) * 2 + i
              + (((k : Int) / (3 / 2)) * 1 + j) * 3) = some c) ∧
    (basic_bitmap.split ⟨some 0, 3, 2⟩ 2 1).tiles 3 [[1, 2, 3, 4, 5, 6]]
      = some ([[1, 2, 3, 4, 5, 6], [1, 2], [4, 5]], [⟨some 1, 2, 1⟩, ⟨some 2, 2, 1⟩]) :=
  ⟨split_enumerates_tiles [[1, 2, 3, 4, 5, 6]] ⟨some 0, 3, 2⟩ 2 1 3 (by decide) (by decide)
    (by decide) (by decide) (by decide) (by decide), by decide⟩

/-- C13: for a valid buffer `A` and its handle copy `A.copy` (same `pixels`),
every index `0 ≤ i < A.w * A.h` and value `v`: the write of `v` at `i` through
`A` succeeds, after it the read of index `i` through the copy returns `v`, and
every other index read through the copy is as before. -/
theorem handle_copy_shares_storage (σ : Heap) (A : basic_bitmap) (i : Int) (v : Nat)
    (hA : valid σ A) (hi0 : 0 ≤ i) (hi : i < A.w * A.h) :
    A.copy.pixels = A.pixels ∧
    ∃ σ', A.set σ i v = some σ' ∧ A.copy.get σ' i = some v ∧
      ∀ j : Int, j ≠ i → A.copy.get σ' j = A.copy.get σ j := by
  obtain ⟨_, _, _, a, vec, hp, ha, hl⟩ := (valid_iff σ A).mp hA
  have halt := getElem?_lt_length σ a vec ha
  refine ⟨rfl, σ.set a (vec.set i.toNat v), ?_, ?_, ?_⟩
  · simp only [basic_bitmap.set, hp, Option.bind_eq_bind, Option.some_bind]
    exact store_eq σ a vec i v ha hi0 (by omega)
  · simp only [basic_bitmap.get, basic_bitmap.copy, hp, Option.bind_eq_bind, Option.some_bind]
    rw [load_set_same σ a _ i halt, loadArr_set vec i i v hi0 (by omega), if_pos rfl]
  · intro j hj
    simp only [basic_bitmap.get, basic_bitmap.copy, hp, Option.bind_eq_bind, Option.some_bind]
    rw [load_set_same σ a _ j halt, loadArr_set vec i j v hi0 (by omega), if_neg hj,
      load_of_getElem? σ a vec j ha]

/-- C13, at the 2 by 1 buffer `5 6`, index 1 and value 9. -/
theorem handle_copy_shares_storage_witness :
    (basic_bitmap.copy ⟨some 0, 2, 1⟩).pixels = (⟨some 0, 2, 1⟩ : basic_bitmap).pixels ∧
    ∃ σ', basic_bitmap.set ⟨some 0, 2, 1⟩ [[5, 6]] 1 9 = some σ' ∧
      (basic_bitmap.copy ⟨some 0, 2, 1⟩).get σ' 1 = some 9 ∧
      ∀ j : Int, j ≠ 1 → (basic_bitmap.copy ⟨some 0, 2, 1⟩).get σ' j
        = (basic_bitmap.copy ⟨some 0, 2, 1⟩).get [[5, 6]] j :=
  handle_copy_shares_storage [[5, 6]] ⟨some 0, 2, 1⟩ 1 9 (by decide) (by decide) (by decide)

/-- C14, evaluated on `basic_bitmap(65536, 65536)`: `width()` and `height()`
return 65536, and `size()` returns the `int32_t` product, which is 0, not
`65536 * 65536 = 4294967296`. -/
theorem size_wraps_at_65536 :
    basic_bitmap.ctor [] 65536 65536 = some ([[]], ⟨some 0, 65536, 65536⟩) ∧
    basic_bitmap.width ⟨some 0, 65536, 65536⟩ = 65536 ∧
    basic_bitmap.height ⟨some 0, 65536, 65536⟩ = 65536 ∧
    basic_bitmap.size ⟨some 0, 65536, 65536⟩ = 0 ∧
    (65536 : Int) * 65536 = 4294967296 := by
  decide

/-- C15, as amended: every sized constructor fails, and so yields no buffer,
when exactly one of `width`, `height` is negative and the other is positive
(their product within `int32_t`): the element count `width * height` is then
negative and the allocation of the vector throws. -/
theorem ctors_fail_on_negative_product {G : Type} (sizeofT : Nat) (σ : Heap)
    (width height n : Int) (f : Int → Int → G → Nat × G) (g : G) (data px : List Nat)
    (color : Nat) (hsign : (width < 0 ∧ 0 < height) ∨ (0 < width ∧ height < 0))
    (hrange : -2147483648 ≤ width * height) :
    basic_bitmap.ctor σ width height = none ∧
    basic_bitmap.ctorFn σ width height f g = none ∧
    basic_bitmap.ctorColor σ width height color = none ∧
    basic_bitmap.ctorVec sizeofT σ width height data = none ∧
    basic_bitmap.ctorPtr sizeofT σ width height px = none ∧
    basic_bitmap.ctorBytes sizeofT σ width height n px = none := by
  have hm := make_shared_neg σ _ (mul32_neg width height hsign hrange)
  refine ⟨?_, ?_, ?_, ?_, ?_, ?_⟩
  · unfold basic_bitmap.ctor; rw [hm]; rfl
  · unfold basic_bitmap.ctorFn; rw [hm]; rfl
  · unfold basic_bitmap.ctorColor; rw [hm]; rfl
  · unfold basic_bitmap.ctorVec; rw [hm]; rfl
  · unfold basic_bitmap.ctorPtr; rw [hm]; rfl
  · unfold basic_bitmap.ctorBytes; rw [hm]; rfl

/-- C15 as amended, at `width = -1`, `height = 5`. -/
theorem ctors_fail_on_negative_product_witness :
    basic_bitmap.ctor [] (-1) 5 = none ∧
    basic_bitmap.ctorFn [] (-1) 5 (fun _ _ (g : Unit) => (7, g)) () = none ∧
    basic_bitmap.ctorColor [] (-1) 5 7 = none ∧
    basic_bitmap.ctorVec 4 [] (-1) 5 [1, 2, 3] = none ∧
    basic_bitmap.ctorPtr 4 [] (-1) 5 [1, 2, 3] = none ∧
    basic_bitmap.ctorBytes 4 [] (-1) 5 3 [1, 2, 3] = none :=
  ctors_fail_on_negative_product 4 [] (-1) 5 3 (fun _ _ (g : Unit) => (7, g)) () [1, 2, 3]
    [1, 2, 3] 7 (by decide) (by decide)

/-- C15, as stated, fails at `width = -1`, `height = -1`: the element count is
`(-1) * (-1) = 1`, no constructor fails, and each yields a buffer of one
element whose width and height are `-1`. -/
theorem ctors_succeed_on_both_negative :
    basic_bitmap.ctor [] (-1) (-1) = some ([[0]], ⟨some 0, -1, -1⟩) ∧
    basic_bitmap.ctorFn [] (-1) (-1) (fun _ _ (g : Unit) => (7, g)) ()
      = some ([[0]], ⟨some 0, -1, -1⟩, ()) ∧
    basic_bitmap.ctorColor [] (-1) (-1) 5 = some ([[5]], ⟨some 0, -1, -1⟩) ∧
    basic_bitmap.ctorPtr 4 [] (-1) (-1) [9] = some ([[9]], ⟨some 0, -1, -1⟩) ∧
    basic_bitmap.ctorBytes 4 [] (-1) (-1) 3 [10, 20, 30]
      = some ([[0xFF1E140A]], ⟨some 0, -1, -1⟩) := by
  decide

/-- C16, as amended: `split` itself returns a splitter for any tile size; when
exactly one of `tileWidth`, `tileHeight` is negative and the other is positive
(their product within `int32_t`), `begin()` differs from `end()`, the first
`operator*` fails in the allocation of the tile, and the enumeration yields no
tile. -/
theorem split_fails_on_negative_product (σ : Heap) (B : basic_bitmap) (tw th : Int) (fuel : Nat)
    (hsign : (tw < 0 ∧ 0 < th) ∨ (0 < tw ∧ th < 0)) (hrange : -2147483648 ≤ tw * th) :
    B.split tw th = ⟨B, tw, th⟩ ∧
    (B.split tw th).begin.ne (B.split tw th).end = true ∧
    (B.split tw th).begin.deref σ = none ∧
    (B.split tw th).tiles fuel σ = none := by
  have hm := make_shared_neg σ _ (mul32_neg tw th hsign hrange)
  have hne : (B.split tw th).begin.ne (B.split tw th).end = true := by
    simp [basic_bitmap.split, splitter.begin, splitter.end, const_split_iterator.ne]
  have hderef : (B.split tw th).begin.deref σ = none := by
    unfold const_split_iterator.deref basic_bitmap.cut basic_bitmap.ctor
    simp only [basic_bitmap.split, splitter.begin]
    rw [hm]
    rfl
  refine ⟨rfl, hne, hderef, ?_⟩
  unfold splitter.tiles
  cases fuel with
  | zero => rfl
  | succ k =>
    unfold enumerate
    rw [if_pos hne, hderef]
    rfl

/-- C16 as amended, at the 1 by 1 buffer `7` and the tile size `-1` by `2`. -/
theorem split_fails_on_negative_product_witness :
    basic_bitmap.split ⟨some 0, 1, 1⟩ (-1) 2 = ⟨⟨some 0, 1, 1⟩, -1, 2⟩ ∧
    (basic_bitmap.split ⟨some 0, 1, 1⟩ (-1) 2).begin.ne
      (basic_bitmap.split ⟨some 0, 1, 1⟩ (-1) 2).end = true ∧
    (basic_bitmap.split ⟨some 0, 1, 1⟩ (-1) 2).begin.deref [[7]] = none ∧
    (basic_bitmap.split ⟨some 0, 1, 1⟩ (-1) 2).tiles 3 [[7]] = none :=
  split_fails_on_negative_product [[7]] ⟨some 0, 1, 1⟩ (-1) 2 3 (by decide) (by decide)

/-- C16, as stated, fails at the 1 by 1 buffer `7` and the tile size 0 by 0:
nothing fails, `begin()` differs from `end()`, the first `operator*` returns a
tile (of width and height 0), and `operator++` leaves the cursor at `(0, 0)`. -/
theorem split_zero_tile_emits :
    (basic_bitmap.split ⟨some 0, 1, 1⟩ 0 0).begin.ne
      (basic_bitmap.split ⟨some 0, 1, 1⟩ 0 0).end = true ∧
    (basic_bitmap.split ⟨some 0, 1, 1⟩ 0 0).begin.deref [[7]]
      = some ([[7], []], ⟨some 1, 0, 0⟩) ∧
    (basic_bitmap.split ⟨some 0, 1, 1⟩ 0 0).begin.inc
      = (basic_bitmap.split ⟨some 0, 1, 1⟩ 0 0).begin := by
  decide

/-- C12: for a valid buffer `B` with `B.w * B.h ≥ 1` (element size from 1 byte
up), `B.clone()` returns a buffer of the same width and height whose elements
equal those of `B` at every index, on a vector of its own: `B` reads as
before, a write of any element through the clone leaves every element of `B`
as it is, and a write through `B` leaves every element of the clone as it
is. -/
theorem clone_is_independent_copy (sizeofT : Nat) (σ : Heap) (B : basic_bitmap)
    (hB : valid σ B) (hsz : 1 ≤ B.w * B.h) (hs0 : 0 < sizeofT) (hs : sizeofT ≤ 4294967296) :
    ∃ σ' C, B.clone sizeofT σ = some (σ', C) ∧ C.width = B.width ∧ C.height = B.height ∧
      C.pixels ≠ B.pixels ∧
      (∀ i : Int, 0 ≤ i → i < B.w * B.h → ∃ c, C.get σ' i = some c ∧ B.get σ i = some c) ∧
      (∀ i : Int, B.get σ' i = B.get σ i) ∧
      (∀ (i : Int) (v : Nat), 0 ≤ i → i < B.w * B.h →
        ∃ σ'', C.set σ' i v = some σ'' ∧ C.get σ'' i = some v ∧
          ∀ j : Int, B.get σ'' j = B.get σ' j) ∧
      (∀ (i : Int) (v : Nat), 0 ≤ i → i < B.w * B.h →
        ∃ σ'', B.set σ' i v = some σ'' ∧ B.get σ'' i = some v ∧
          ∀ j : Int, C.get σ'' j = C.get σ' j) := by
  obtain ⟨a, src, hp, ha, halt, hl, hclone⟩ := clone_spec sizeofT σ B hB hs0 hs
  have hne : 1 ≤ (src.length : Int) := by omega
  have ha' : (σ ++ [src])[a]? = some src := by rw [List.getElem?_append_left halt]; exact ha
  have hlast : (σ ++ [src]).length = σ.length + 1 := by simp
  refine ⟨_, _, hclone, rfl, rfl, ?_, ?_, ?_, ?_, ?_⟩
  · rw [hp]
    intro h
    have := Option.some.inj h
    omega
  · intro i hi0 hi
    obtain ⟨c, hc⟩ := loadArr_isSome src i hi0 (by omega)
    refine ⟨c, ?_, ?_⟩
    · simp only [basic_bitmap.get, Option.bind_eq_bind, Option.some_bind]
      rw [load_append_last, hc]
    · simp only [basic_bitmap.get, hp, Option.bind_eq_bind, Option.some_bind]
      rw [load_of_getElem? σ a src i ha, hc]
  · intro i
    simp only [basic_bitmap.get, hp, Option.bind_eq_bind, Option.some_bind]
    exact load_append σ [src] a i halt
  · intro i v hi0 hi
    refine ⟨σ ++ [src.set i.toNat v], ?_, ?_, ?_⟩
    · simp only [basic_bitmap.set, Option.bind_eq_bind, Option.some_bind]
      exact store_append_last σ src i v hi0 (by omega)
    · simp only [basic_bitmap.get, Option.bind_eq_bind, Option.some_bind]
      rw [load_append_last, loadArr_set src i i v hi0 (by omega), if_pos rfl]
    · intro j
      simp only [basic_bitmap.get, hp, Option.bind_eq_bind, Option.some_bind]
      rw [load_append σ _ a j halt, load_append σ _ a j halt]
  · intro i v hi0 hi
    refine ⟨(σ ++ [src]).set a (src.set i.toNat v), ?_, ?_, ?_⟩
    · simp only [basic_bitmap.set, hp, Option.bind_eq_bind, Option.some_bind]
      exact store_eq _ a src i v ha' hi0 (by omega)
    · simp only [basic_bitmap.get, hp, Option.bind_eq_bind, Option.some_bind]
      rw [load_set_same _ a _ i (by omega), loadArr_set src i i v hi0 (by omega), if_pos rfl]
    · intro j
      simp only [basic_bitmap.get, Option.bind_eq_bind, Option.some_bind]
      exact load_set_ne _ a σ.length _ j (by omega)

/-- C12, at the 2 by 1 buffer `5 6` of 4-byte elements, whose clone is `5 6`
at a new address. -/
theorem clone_is_independent_copy_witness :
    (∃ σ' C, basic_bitmap.clone 4 ⟨some 0, 2, 1⟩ [[5, 6]] = some (σ', C) ∧
      C.width = basic_bitmap.width ⟨some 0, 2, 1⟩ ∧
      C.height = basic_bitmap.height ⟨some 0, 2, 1⟩ ∧
      C.pixels ≠ (⟨some 0, 2, 1⟩ : basic_bitmap).pixels ∧
      (∀ i : Int, 0 ≤ i → i < 2 * 1 →
        ∃ c, C.get σ' i = some c ∧ basic_bitmap.get ⟨some 0, 2, 1⟩ [[5, 6]] i = some c) ∧
      (∀ i : Int, basic_bitmap.get ⟨some 0, 2, 1⟩ σ' i
        = basic_bitmap.get ⟨some 0, 2, 1⟩ [[5, 6]] i) ∧
      (∀ (i : Int) (v : Nat), 0 ≤ i → i < 2 * 1 →
        ∃ σ'', C.set σ' i v = some σ'' ∧ C.get σ'' i = some v ∧
          ∀ j : Int, basic_bitmap.get ⟨some 0, 2, 1⟩ σ'' j
            = basic_bitmap.get ⟨some 0, 2, 1⟩ σ' j) ∧
      (∀ (i : Int) (v : Nat), 0 ≤ i → i < 2 * 1 →
        ∃ σ'', basic_bitmap.set ⟨some 0, 2, 1⟩ σ' i v = some σ'' ∧
          basic_bitmap.get ⟨some 0, 2, 1⟩ σ'' i = some v ∧
          ∀ j : Int, C.get σ'' j = C.get σ' j)) ∧
    basic_bitmap.clone 4 ⟨some 0, 2, 1⟩ [[5, 6]] = some ([[5, 6], [5, 6]], ⟨some 1, 2, 1⟩) :=
  ⟨clone_is_independent_copy 4 [[5, 6]] ⟨some 0, 2, 1⟩ (by decide) (by decide) (by decide)
    (by decide), by decide⟩

/-- C11, as amended: for `W, H ≥ 0` with `W * H` within `int32_t` and every
generator `f`, the buffer constructed from `(W, H, f)` has width `W` and
height `H`; the generator is called at the coordinates
`(0, 0), (1, 0), ..., (W - 1, 0), (0, 1), ..., (W - 1, H - 1)`, once each and
in this order (the coordinate `(x, y)` is the call number `x + y * W`), and
the element at linear index `x + y * W` is the value that call returned, which
is `f(x, y)` when the value depends on the coordinates only. -/
theorem ctorFn_row_major {G : Type} (σ : Heap) (W H : Int) (f : Int → Int → G → Nat × G)
    (g : G) (hW : 0 ≤ W) (hH : 0 ≤ H) (hWH : W * H < 2147483648) :
    ∃ σ' D g', basic_bitmap.ctorFn σ W H f g = some (σ', D, g') ∧
      D.width = W ∧ D.height = H ∧
      ((rowMajor W H).length : Int) = W * H ∧
      g' = (runCalls f g (rowMajor W H)).2 ∧
      ∀ x y : Int, 0 ≤ x → x < W → 0 ≤ y → y < H →
        (rowMajor W H)[(x + y * W).toNat]? = some (x, y) ∧
        ∃ c, D.get σ' (x + y * W) = some c ∧
          (runCalls f g (rowMajor W H)).1[(x + y * W).toNat]? = some c ∧
          ∀ val : Int → Int → Nat, (∀ x y g, (f x y g).1 = val x y) → c = val x y := by
  have hlen := length_rowMajor_int W H hW hH
  have hcomm : H * W = W * H := by ring
  refine ⟨_, _, _, ctorFn_spec σ W H f g hW hH hWH, rfl, rfl, by omega, rfl, ?_⟩
  intro x y hx0 hx hy0 hy
  obtain ⟨n, rfl⟩ := Int.eq_ofNat_of_zero_le hH
  have hcoord := getElem?_rowMajor W n x y hx0 hx hy0 hy
  obtain ⟨b1, b2, b3⟩ := index_bounds W n x y hx0 hx hy0 hy
  have hl := length_runCalls f (rowMajor W n) g
  have hk : (x + y * W).toNat < (runCalls f g (rowMajor W n)).1.length := by omega
  refine ⟨hcoord, (runCalls f g (rowMajor W n)).1[(x + y * W).toNat], ?_,
    List.getElem?_eq_getElem hk, ?_⟩
  · simp only [basic_bitmap.get, Option.bind_eq_bind, Option.some_bind]
    rw [load_append_last]
    unfold loadArr
    rw [if_neg (by omega), List.getElem?_eq_getElem hk]
  · intro val hval
    have hv := runCalls_values f val hval (rowMajor W n) g
    have h1 : (runCalls f g (rowMajor W n)).1[(x + y * W).toNat]? = some (val x y) := by
      rw [hv, List.getElem?_map, hcoord]
      rfl
    rw [List.getElem?_eq_getElem hk] at h1
    exact Option.some.inj h1

/-- C11 as amended, at the 2 by 2 buffer built by a generator that returns
`x + 16 * y` and records its calls: the buffer holds `0, 1, 16, 17` and the
record is `(0, 0), (1, 0), (0, 1), (1, 1)`. -/
theorem ctorFn_row_major_witness :
    (∃ σ' D g', basic_bitmap.ctorFn [] 2 2
        (fun x y (log : List (Int × Int)) => ((x + 16 * y).toNat, log ++ [(x, y)])) []
          = some (σ', D, g') ∧
      D.width = 2 ∧ D.height = 2 ∧
      ((rowMajor 2 2).length : Int) = 2 * 2 ∧
      g' = (runCalls
        (fun x y (log : List (Int × Int)) => ((x + 16 * y).toNat, log ++ [(x, y)])) []
        (rowMajor 2 2)).2 ∧
      ∀ x y : Int, 0 ≤ x → x < 2 → 0 ≤ y → y < 2 →
        (rowMajor 2 2)[(x + y * 2).toNat]? = some (x, y) ∧
        ∃ c, D.get σ' (x + y * 2) = some c ∧
          (runCalls
            (fun x y (log : List (Int × Int)) => ((x + 16 * y).toNat, log ++ [(x, y)])) []
            (rowMajor 2 2)).1[(x + y * 2).toNat]? = some c ∧
          ∀ val : Int → Int → Nat,
            (∀ x y g, ((fun x y (log : List (Int × Int)) =>
              ((x + 16 * y).toNat, log ++ [(x, y)])) x y g).1 = val x y) → c = val x y) ∧
    basic_bitmap.ctorFn [] 2 2
        (fun x y (log : List (Int × Int)) => ((x + 16 * y).toNat, log ++ [(x, y)])) []
      = some ([[0, 1, 16, 17]], ⟨some 0, 2, 2⟩, [(0, 0), (1, 0), (0, 1), (1, 1)]) :=
  ⟨ctorFn_row_major [] 2 2
      (fun x y (log : List (Int × Int)) => ((x + 16 * y).toNat, log ++ [(x, y)])) []
      (by decide) (by decide) (by decide), by decide⟩

/-- C11, as stated, fails at `W = H = 65536` with the generator that returns
0: the construction does not yield a buffer (it writes to element 0 of an
empty vector). -/
theorem ctorFn_overflow :
    basic_bitmap.ctorFn [] 65536 65536 (fun _ _ (g : Unit) => (0, g)) () = none ∧
    ¬ ∃ σ' D g', basic_bitmap.ctorFn [] 65536 65536 (fun _ _ (g : Unit) => (0, g)) ()
        = some (σ', D, g') ∧
      ∀ x y : Int, 0 ≤ x → x < 65536 → 0 ≤ y → y < 65536 →
        D.get σ' (x + y * 65536) = some 0 := by
  refine ⟨ctorFn_65536 [] _ (), ?_⟩
  rintro ⟨σ', D, g', h, -⟩
  rw [ctorFn_65536 [] _ ()] at h
  exact Option.noConfusion h

/-- C17: for a buffer with `B.w, B.h ≥ 0` and a tile size `tw, th > 0` (with
`B.w + tw` and `B.h + th` within `int32_t`), finitely many `operator++` take
`split(tw, th).begin()` to a cursor equal to `end()`, the cursor `(-1, -1)`;
`begin()` is the cursor `(0, 0)` at every call; and when an enumeration of a
valid buffer has yielded its tiles, the buffer is unchanged and a second
enumeration yields as many tiles, each of the same width, height and elements
as the tile of the first at the same position. -/
theorem split_finite_restartable (B : basic_bitmap) (tw th : Int) (hW : 0 ≤ B.w)
    (hH : 0 ≤ B.h) (htw : 0 < tw) (hth : 0 < th) (hWr : B.w + tw < 2147483648)
    (hHr : B.h + th < 2147483648) :
    (∃ n : Nat, Nat.iterate const_split_iterator.inc n (B.split tw th).begin
      = (B.split tw th).end) ∧
    (B.split tw th).begin.xpos = 0 ∧ (B.split tw th).begin.ypos = 0 ∧
    (B.split tw th).end.xpos = -1 ∧ (B.split tw th).end.ypos = -1 ∧
    ∀ (σ s1 : Heap) (fuel : Nat) (ts : List basic_bitmap), valid σ B →
      (B.split tw th).tiles fuel σ = some (s1, ts) →
      (∀ i : Int, B.get s1 i = B.get σ i) ∧
      ∃ s2 ts2, (B.split tw th).tiles fuel s1 = some (s2, ts2) ∧ ts2.length = ts.length ∧
        ∀ k (hk : k < ts.length) (hk2 : k < ts2.length),
          ts2[k].width = ts[k].width ∧ ts2[k].height = ts[k].height ∧
          ∀ i : Int, ts2[k].get s2 i = ts[k].get s1 i := by
  refine ⟨?_, rfl, rfl, rfl, rfl, fun σ s1 fuel ts hB hfirst =>
    enumerate_twice σ s1 B tw th fuel ts hB hfirst⟩
  have hmeasure : ∀ X Y : Int, 0 ≤ X → 0 ≤ Y →
      (Y - 0) * (X + 1) + (X - 0) < ((Y * (X + 1) + X).toNat + 1 : Nat) := by
    intro X Y hX hY
    have : 0 ≤ Y * (X + 1) := mul_nonneg hY (by omega)
    have e : (Y - 0) * (X + 1) = Y * (X + 1) := by ring
    omega
  by_cases hx : tw ≤ B.w
  · by_cases hy : th ≤ B.h
    · exact cursor_reaches_end B tw th (B.w - tw) (B.h - th) htw hth (by omega) (by omega)
        (by omega) (by omega) (by omega) (by omega) (by omega) _ 0 0 (by omega) (by omega)
        (by omega) (by omega) (hmeasure _ _ (by omega) (by omega))
    · exact cursor_reaches_end B tw th (B.w - tw) 0 htw hth (by omega) (by omega)
        (by omega) (by omega) (by omega) (by omega) (by omega) _ 0 0 (by omega) (by omega)
        (by omega) (by omega) (hmeasure _ _ (by omega) (by omega))
  · by_cases hy : th ≤ B.h
    · exact cursor_reaches_end B tw th 0 (B.h - th) htw hth (by omega) (by omega)
        (by omega) (by omega) (by omega) (by omega) (by omega) _ 0 0 (by omega) (by omega)
        (by omega) (by omega) (hmeasure _ _ (by omega) (by omega))
    · exact cursor_reaches_end B tw th 0 0 htw hth (by omega) (by omega)
        (by omega) (by omega) (by omega) (by omega) (by omega) _ 0 0 (by omega) (by omega)
        (by omega) (by omega) (hmeasure _ _ (by omega) (by omega))

/-- C17, at the 3 by 2 buffer `1 2 3 / 4 5 6` and the tile size 2 by 1: two
`operator++` lead from `begin()` to `end()`, and two enumerations in a row
yield the tiles `1 2`, `4 5` twice. -/
theorem split_finite_restartable_witness :
    ((∃ n : Nat, Nat.iterate const_split_iterator.inc n
        (basic_bitmap.split ⟨some 0, 3, 2⟩ 2 1).begin
      = (basic_bitmap.split ⟨some 0, 3, 2⟩ 2 1).end) ∧
    (basic_bitmap.split ⟨some 0, 3, 2⟩ 2 1).begin.xpos = 0 ∧
    (basic_bitmap.split ⟨some 0, 3, 2⟩ 2 1).begin.ypos = 0 ∧
    (basic_bitmap.split ⟨some 0, 3, 2⟩ 2 1).end.xpos = -1 ∧
    (basic_bitmap.split ⟨some 0, 3, 2⟩ 2 1).end.ypos = -1 ∧
    ∀ (σ s1 : Heap) (fuel : Nat) (ts : List basic_bitmap), valid σ ⟨some 0, 3, 2⟩ →
      (basic_bitmap.split ⟨some 0, 3, 2⟩ 2 1).tiles fuel σ = some (s1, ts) →
      (∀ i : Int, basic_bitmap.get ⟨some 0, 3, 2⟩ s1 i = basic_bitmap.get ⟨some 0, 3, 2⟩ σ i) ∧
      ∃ s2 ts2, (basic_bitmap.split ⟨some 0, 3, 2⟩ 2 1).tiles fuel s1 = some (s2, ts2) ∧
        ts2.length = ts.length ∧
        ∀ k (hk : k < ts.length) (hk2 : k < ts2.length),
          ts2[k].width = ts[k].width ∧ ts2[k].height = ts[k].height ∧
          ∀ i : Int, ts2[k].get s2 i = ts[k].get s1 i) ∧
    Nat.iterate const_split_iterator.inc 2 (basic_bitmap.split ⟨some 0, 3, 2⟩ 2 1).begin
      = (basic_bitmap.split ⟨some 0, 3, 2⟩ 2 1).end ∧
    ((basic_bitmap.split ⟨some 0, 3, 2⟩ 2 1).tiles 3 [[1, 2, 3, 4, 5, 6]]).bind
        (fun r => (basic_bitmap.split ⟨some 0, 3, 2⟩ 2 1).tiles 3 r.1)
      = some ([[1, 2, 3, 4, 5, 6], [1, 2], [4, 5], [1, 2], [4, 5]],
          [⟨some 3, 2, 1⟩, ⟨some 4, 2, 1⟩]) :=
  ⟨split_finite_restartable ⟨some 0, 3, 2⟩ 2 1 (by decide) (by decide) (by decide) (by decide)
    (by decide) (by decide), by decide, by decide⟩

/-- C18: the storage-length invariant `valid` (the vector of a buffer has
`width * height` elements, a count within `int32_t`).  A buffer produced by a
sized constructor from `W, H ≥ 0` with `W * H < 2^31` satisfies it with width
`W` and height `H`.  For a buffer `B` that satisfies it: `put`, `clear` and an
element write through `B` change the length of no vector and leave `B` valid;
the bitmaps returned by `cut(x, y, w, h)` (for `w, h ≥ 0`, `w * h < 2^31`),
`clone()` and `flip()` satisfy it with the dimensions `w` by `h`, `B.w` by
`B.h` and `B.w` by `B.h`, and `B` stays valid. -/
theorem storage_length_invariant (sizeofT : Nat) (σ : Heap) :
    (∀ (W H : Int) (σ' : Heap) (D : basic_bitmap), 0 ≤ W → 0 ≤ H → W * H < 2147483648 →
      (basic_bitmap.ctor σ W H = some (σ', D) → valid σ' D ∧ D.w = W ∧ D.h = H) ∧
      (∀ (G : Type) (f : Int → Int → G → Nat × G) (g g' : G),
        basic_bitmap.ctorFn σ W H f g = some (σ', D, g') → valid σ' D ∧ D.w = W ∧ D.h = H) ∧
      (∀ color : Nat,
        basic_bitmap.ctorColor σ W H color = some (σ', D) → valid σ' D ∧ D.w = W ∧ D.h = H) ∧
      (∀ data : List Nat,
        basic_bitmap.ctorVec sizeofT σ W H data = some (σ', D) →
          valid σ' D ∧ D.w = W ∧ D.h = H) ∧
      (∀ px : List Nat,
        basic_bitmap.ctorPtr sizeofT σ W H px = some (σ', D) →
          valid σ' D ∧ D.w = W ∧ D.h = H) ∧
      (∀ (n : Int) (px : List Nat),
        basic_bitmap.ctorBytes sizeofT σ W H n px = some (σ', D) →
          valid σ' D ∧ D.w = W ∧ D.h = H)) ∧
    ∀ B : basic_bitmap, valid σ B →
      (∀ (S : basic_bitmap) (x y : Int) (σ' : Heap), B.put σ x y S = some σ' →
        shape σ' = shape σ ∧ valid σ' B) ∧
      (∀ (color : Nat) (σ' : Heap), B.clear sizeofT σ color = some σ' →
        shape σ' = shape σ ∧ valid σ' B) ∧
      (∀ (i : Int) (v : Nat) (σ' : Heap), B.set σ i v = some σ' →
        shape σ' = shape σ ∧ valid σ' B) ∧
      (∀ (x y w h : Int) (σ' : Heap) (D : basic_bitmap), 0 ≤ w → 0 ≤ h → w * h < 2147483648 →
        B.cut σ x y w h = some (σ', D) → valid σ' D ∧ D.w = w ∧ D.h = h ∧ valid σ' B) ∧
      (∀ (σ' : Heap) (C : basic_bitmap), B.clone sizeofT σ = some (σ', C) →
        valid σ' C ∧ C.w = B.w ∧ C.h = B.h ∧ valid σ' B) ∧
      (∀ (σ' : Heap) (R : basic_bitmap), B.flip sizeofT σ = some (σ', R) →
        valid σ' R ∧ R.w = B.w ∧ R.h = B.h ∧ valid σ' B) := by
  have hfresh3 : ∀ (W H : Int) (σ' : Heap) (D : basic_bitmap), 0 ≤ W → 0 ≤ H →
      W * H < 2147483648 →
      D = ⟨some σ.length, W, H⟩ ∧
        shape σ' = shape (σ ++ [List.replicate (mul32 W H).toNat 0]) →
      valid σ' D ∧ D.w = W ∧ D.h = H := by
    rintro W H σ' D hW hH hWH ⟨rfl, hs⟩
    have hmul : mul32 W H = W * H := mul32_eq _ _ (by have := mul_nonneg hW hH; omega) hWH
    rw [hmul] at hs
    exact ⟨valid_fresh σ σ' W H hW hH hWH hs, rfl, rfl⟩
  refine ⟨?_, ?_⟩
  · intro W H σ' D hW hH hWH
    exact ⟨fun h => hfresh3 W H σ' D hW hH hWH (ctor_shape σ σ' W H D h),
      fun G f g g' h => hfresh3 W H σ' D hW hH hWH (ctorFn_shape σ σ' W H f g g' D h),
      fun color h => hfresh3 W H σ' D hW hH hWH (ctorColor_shape σ σ' W H color D h),
      fun data h => hfresh3 W H σ' D hW hH hWH (ctorVec_shape sizeofT σ σ' W H data D h),
      fun px h => hfresh3 W H σ' D hW hH hWH (ctorPtr_shape sizeofT σ σ' W H px D h),
      fun n px h => hfresh3 W H σ' D hW hH hWH (ctorBytes_shape sizeofT σ σ' W H n px D h)⟩
  · intro B hB
    obtain ⟨hW0, hH0, hWH0, -⟩ := (valid_iff σ B).mp hB
    have hfresh : ∀ (W H : Int) (σ' : Heap) (D : basic_bitmap), 0 ≤ W → 0 ≤ H →
        W * H < 2147483648 →
        D = ⟨some σ.length, W, H⟩ ∧
          shape σ' = shape (σ ++ [List.replicate (mul32 W H).toNat 0]) →
        valid σ' D ∧ D.w = W ∧ D.h = H ∧ valid σ' B := by
      intro W H σ' D hW hH hWH h
      obtain ⟨h1, h2, h3⟩ := hfresh3 W H σ' D hW hH hWH h
      exact ⟨h1, h2, h3, valid_after_alloc σ σ' _ B h.2 hB⟩
    refine ⟨?_, ?_, ?_, ?_, ?_, ?_⟩
    · intro S x y σ' h
      have hs := put_shape B S σ σ' x y h
      exact ⟨hs, valid_of_shape σ σ' B hs hB⟩
    · intro color σ' h
      have hs := clear_shape sizeofT B σ σ' color h
      exact ⟨hs, valid_of_shape σ σ' B hs hB⟩
    · intro i v σ' h
      have hs := set_shape B σ σ' i v h
      exact ⟨hs, valid_of_shape σ σ' B hs hB⟩
    · intro x y w h σ' D hw hh hwh hcut
      exact hfresh w h σ' D hw hh hwh (cut_shape B σ σ' x y w h D hcut)
    · intro σ' C h
      exact hfresh B.w B.h σ' C hW0 hH0 hWH0 (clone_shape sizeofT B C σ σ' h)
    · intro σ' R h
      exact hfresh B.w B.h σ' R hW0 hH0 hWH0 (flip_shape sizeofT B R σ σ' h)

/-- C18, on the store that holds the 2 by 1 buffer `5 6` and the 1 by 1 buffer
`7`: a construction and each operation on the first buffer, with the store it
leaves, and the invariant there. -/
theorem storage_length_invariant_witness :
    (basic_bitmap.ctor [[5, 6], [7]] 1 2 = some ([[5, 6], [7], [0, 0]], ⟨some 2, 1, 2⟩) ∧
      valid [[5, 6], [7], [0, 0]] ⟨some 2, 1, 2⟩ ∧
      (⟨some 2, 1, 2⟩ : basic_bitmap).w = 1 ∧ (⟨some 2, 1, 2⟩ : basic_bitmap).h = 2) ∧
    (basic_bitmap.put ⟨some 0, 2, 1⟩ [[5, 6], [7]] 0 0 ⟨some 1, 1, 1⟩ = some [[7, 6], [7]] ∧
      shape [[7, 6], [7]] = shape [[5, 6], [7]] ∧ valid [[7, 6], [7]] ⟨some 0, 2, 1⟩) ∧
    (basic_bitmap.clear 4 ⟨some 0, 2, 1⟩ [[5, 6], [7]] 9 = some [[9, 9], [7]] ∧
      shape [[9, 9], [7]] = shape [[5, 6], [7]] ∧ valid [[9, 9], [7]] ⟨some 0, 2, 1⟩) ∧
    (basic_bitmap.set ⟨some 0, 2, 1⟩ [[5, 6], [7]] 1 3 = some [[5, 3], [7]] ∧
      shape [[5, 3], [7]] = shape [[5, 6], [7]] ∧ valid [[5, 3], [7]] ⟨some 0, 2, 1⟩) ∧
    (basic_bitmap.cut ⟨some 0, 2, 1⟩ [[5, 6], [7]] 1 0 1 1
        = some ([[5, 6], [7], [6]], ⟨some 2, 1, 1⟩) ∧
      valid [[5, 6], [7], [6]] ⟨some 2, 1, 1⟩ ∧
      (⟨some 2, 1, 1⟩ : basic_bitmap).w = 1 ∧ (⟨some 2, 1, 1⟩ : basic_bitmap).h = 1 ∧
      valid [[5, 6], [7], [6]] ⟨some 0, 2, 1⟩) ∧
    (basic_bitmap.clone 4 ⟨some 0, 2, 1⟩ [[5, 6], [7]]
        = some ([[5, 6], [7], [5, 6]], ⟨some 2, 2, 1⟩) ∧
      valid [[5, 6], [7], [5, 6]] ⟨some 2, 2, 1⟩ ∧
      (⟨some 2, 2, 1⟩ : basic_bitmap).w = (⟨some 0, 2, 1⟩ : basic_bitmap).w ∧
      (⟨some 2, 2, 1⟩ : basic_bitmap).h = (⟨some 0, 2, 1⟩ : basic_bitmap).h ∧
      valid [[5, 6], [7], [5, 6]] ⟨some 0, 2, 1⟩) ∧
    (basic_bitmap.flip 4 ⟨some 0, 2, 1⟩ [[5, 6], [7]]
        = some ([[0, 0], [7], [0, 0]], ⟨some 2, 2, 1⟩) ∧
      valid [[0, 0], [7], [0, 0]] ⟨some 2, 2, 1⟩ ∧
      (⟨some 2, 2, 1⟩ : basic_bitmap).w = (⟨some 0, 2, 1⟩ : basic_bitmap).w ∧
      (⟨some 2, 2, 1⟩ : basic_bitmap).h = (⟨some 0, 2, 1⟩ : basic_bitmap).h ∧
      valid [[0, 0], [7], [0, 0]] ⟨some 0, 2, 1⟩) :=
  ⟨⟨by decide, ((storage_length_invariant 4 [[5, 6], [7]]).1
      1 2 _ _ (by decide) (by decide) (by decide)).1 (by decide)⟩,
    ⟨by decide, ((storage_length_invariant 4 [[5, 6], [7]]).2 ⟨some 0, 2, 1⟩ (by decide)).1
      ⟨some 1, 1, 1⟩ 0 0 _ (by decide)⟩,
    ⟨by decide, ((storage_length_invariant 4 [[5, 6], [7]]).2 ⟨some 0, 2, 1⟩ (by decide)).2.1
      9 _ (by decide)⟩,
    ⟨by decide, ((storage_length_invariant 4 [[5, 6], [7]]).2 ⟨some 0, 2, 1⟩ (by decide)).2.2.1
      1 3 _ (by decide)⟩,
    ⟨by decide, ((storage_length_invariant 4 [[5, 6], [7]]).2 ⟨some 0, 2, 1⟩ (by decide)).2.2.2.1
      1 0 1 1 _ _ (by decide) (by decide) (by decide) (by decide)⟩,
    ⟨by decide,
      ((storage_length_invariant 4 [[5, 6], [7]]).2 ⟨some 0, 2, 1⟩ (by decide)).2.2.2.2.1
        _ _ (by decide)⟩,
    ⟨by decide,
      ((storage_length_invariant 4 [[5, 6], [7]]).2 ⟨some 0, 2, 1⟩ (by decide)).2.2.2.2.2
        _ _ (by decide)⟩⟩

/-- C19: for a valid destination `D`, a valid source `S` and `x, y ≥ 0` with
`x + S.w ≤ D.w`, `y + S.h ≤ D.h`: `D.put(x, y, S)` succeeds; every element of
`D` at a coordinate `(cx, cy)` outside the rectangle
`[x, x + S.w) × [y, y + S.h)` is as before; no vector changes its length, so
`D` is still a valid buffer of its width and height; and when `S` does not
share the storage of `D`, every element of `S` is as before. -/
theorem put_frame (σ : Heap) (D S : basic_bitmap) (x y : Int) (hD : valid σ D)
    (hS : valid σ S) (hx : 0 ≤ x) (hy : 0 ≤ y) (hxw : x + S.w ≤ D.w) (hyh : y + S.h ≤ D.h) :
    ∃ σ', D.put σ x y S = some σ' ∧
      (∀ cx cy : Int, 0 ≤ cx → cx < D.w → 0 ≤ cy → cy < D.h →
        ¬ (x ≤ cx ∧ cx < x + S.w ∧ y ≤ cy ∧ cy < y + S.h) →
        D.get σ' (cx + cy * D.w) = D.get σ (cx + cy * D.w)) ∧
      shape σ' = shape σ ∧ valid σ' D ∧ valid σ' S ∧
      (S.pixels ≠ D.pixels → ∀ i : Int, S.get σ' i = S.get σ i) := by
  obtain ⟨aD, aS, dvec0, svec0, dvec, hpD, haD, hpS, haS, hput, hdl, F1, -⟩ :=
    put_spec σ D S x y hD hS hx hy hxw hyh
  have haDlt := getElem?_lt_length σ aD dvec0 haD
  have hshape : shape (σ.set aD dvec) = shape σ := shape_set σ aD dvec0 dvec haD hdl
  refine ⟨_, hput, ?_, hshape, valid_of_shape σ _ D hshape hD, valid_of_shape σ _ S hshape hS,
    ?_⟩
  · intro cx cy hcx0 hcx hcy0 hcy hout
    simp only [basic_bitmap.get, hpD, Option.bind_eq_bind, Option.some_bind]
    rw [load_set_same σ aD dvec _ haDlt, load_of_getElem? σ aD dvec0 _ haD]
    refine F1 _ ?_
    intro hsw j hj0 hj heq
    obtain ⟨q1, q2⟩ := divmod_unique D.w cy cx (cx + cy * D.w) rfl hcx0 hcx
    obtain ⟨q3, q4⟩ := divmod_unique D.w (y + j) x (cx + cy * D.w)
      (by rw [heq]; ring) hx (by omega)
    exact hout ⟨by omega, by omega, by omega, by omega⟩
  · intro hne i
    have hal : aD ≠ aS := by
      intro h
      apply hne
      rw [hpS, hpD, h]
    simp only [basic_bitmap.get, hpS, Option.bind_eq_bind, Option.some_bind]
    exact load_set_ne σ aD aS dvec i hal

/-- C19, at the 3 by 2 destination of zeros and the 2 by 2 source `1 2 / 3 4`
put at `(1, 0)`: the destination ends as `0 2 0 / 0 4 0`. -/
theorem put_frame_witness :
    (∃ σ', basic_bitmap.put ⟨some 0, 3, 2⟩ [[0, 0, 0, 0, 0, 0], [1, 2, 3, 4]] 1 0 ⟨some 1, 2, 2⟩
        = some σ' ∧
      (∀ cx cy : Int, 0 ≤ cx → cx < 3 → 0 ≤ cy → cy < 2 →
        ¬ (1 ≤ cx ∧ cx < 1 + 2 ∧ 0 ≤ cy ∧ cy < 0 + 2) →
        basic_bitmap.get ⟨some 0, 3, 2⟩ σ' (cx + cy * 3)
          = basic_bitmap.get ⟨some 0, 3, 2⟩ [[0, 0, 0, 0, 0, 0], [1, 2, 3, 4]] (cx + cy * 3)) ∧
      shape σ' = shape [[0, 0, 0, 0, 0, 0], [1, 2, 3, 4]] ∧
      valid σ' ⟨some 0, 3, 2⟩ ∧ valid σ' ⟨some 1, 2, 2⟩ ∧
      ((⟨some 1, 2, 2⟩ : basic_bitmap).pixels ≠ (⟨some 0, 3, 2⟩ : basic_bitmap).pixels →
        ∀ i : Int, basic_bitmap.get ⟨some 1, 2, 2⟩ σ' i
          = basic_bitmap.get ⟨some 1, 2, 2⟩ [[0, 0, 0, 0, 0, 0], [1, 2, 3, 4]] i)) ∧
    basic_bitmap.put ⟨some 0, 3, 2⟩ [[0, 0, 0, 0, 0, 0], [1, 2, 3, 4]] 1 0 ⟨some 1, 2, 2⟩
      = some [[0, 2, 0, 0, 4, 0], [1, 2, 3, 4]] :=
  ⟨put_frame [[0, 0, 0, 0, 0, 0], [1, 2, 3, 4]] ⟨some 0, 3, 2⟩ ⟨some 1, 2, 2⟩ 1 0 (by decide)
    (by decide) (by decide) (by decide) (by decide) (by decide), by decide⟩

/-- C20: for a valid destination `D`, a valid source `S` with `S.w ≥ 1` and
`x, y ≥ 0` with `x + S.w ≤ D.w`, `y + S.h ≤ D.h`: `D.put(x, y, S)` succeeds;
for every `j < S.h` the element of `D` at `(x, y + j)` is then the last
element of source row `j`, `S(S.w - 1, j)`; and every element of `D` at any
other coordinate, the columns `x + 1, ..., x + S.w - 1` of the target
rectangle included, is as before. -/
theorem put_exact_effect (σ : Heap) (D S : basic_bitmap) (x y : Int) (hD : valid σ D)
    (hS : valid σ S) (hsw : 1 ≤ S.w) (hx : 0 ≤ x) (hy : 0 ≤ y) (hxw : x + S.w ≤ D.w)
    (hyh : y + S.h ≤ D.h) :
    ∃ σ', D.put σ x y S = some σ' ∧
      (∀ j : Int, 0 ≤ j → j < S.h →
        ∃ c, D.get σ' (x + (y + j) * D.w) = some c ∧
          S.get σ ((S.w - 1) + j * S.w) = some c) ∧
      (∀ cx cy : Int, 0 ≤ cx → cx < D.w → 0 ≤ cy → cy < D.h →
        ¬ (cx = x ∧ y ≤ cy ∧ cy < y + S.h) →
        D.get σ' (cx + cy * D.w) = D.get σ (cx + cy * D.w)) := by
  obtain ⟨aD, aS, dvec0, svec0, dvec, hpD, haD, hpS, haS, hput, hdl, F1, F2⟩ :=
    put_spec σ D S x y hD hS hx hy hxw hyh
  obtain ⟨-, -, -, aS', svec0', hpS', haS', hlS⟩ := (valid_iff σ S).mp hS
  have e1 : aS' = aS := by rw [hpS] at hpS'; exact (Option.some.inj hpS').symm
  subst e1
  have e2 : svec0' = svec0 := by rw [haS] at haS'; exact (Option.some.inj haS').symm
  subst e2
  have haDlt := getElem?_lt_length σ aD dvec0 haD
  refine ⟨_, hput, ?_, ?_⟩
  · intro j hj0 hj
    obtain ⟨r1, r2, r3⟩ := index_bounds S.w S.h (S.w - 1) j (by omega) (by omega) hj0 hj
    obtain ⟨c, hc⟩ := loadArr_isSome svec0' (S.w - 1 + j * S.w) (by omega) (by omega)
    refine ⟨c, ?_, ?_⟩
    · simp only [basic_bitmap.get, hpD, Option.bind_eq_bind, Option.some_bind]
      have e3 : x + (y + j) * D.w = (y + j) * D.w + x := by ring
      have e4 : j * S.w + S.w - 1 = S.w - 1 + j * S.w := by ring
      rw [load_set_same σ aD dvec _ haDlt, e3, F2 j hj0 hj (by omega), e4, hc]
    · simp only [basic_bitmap.get, hpS, Option.bind_eq_bind, Option.some_bind]
      rw [load_of_getElem? σ aS' svec0' _ haS, hc]
  · intro cx cy hcx0 hcx hcy0 hcy hout
    simp only [basic_bitmap.get, hpD, Option.bind_eq_bind, Option.some_bind]
    rw [load_set_same σ aD dvec _ haDlt, load_of_getElem? σ aD dvec0 _ haD]
    refine F1 _ ?_
    intro _ j hj0 hj heq
    obtain ⟨q1, q2⟩ := divmod_unique D.w cy cx (cx + cy * D.w) rfl hcx0 hcx
    obtain ⟨q3, q4⟩ := divmod_unique D.w (y + j) x (cx + cy * D.w)
      (by rw [heq]; ring) hx (by omega)
    exact hout ⟨by omega, by omega, by omega⟩

/-- C20, at the 3 by 2 destination of zeros and the 2 by 2 source `1 2 / 3 4`
put at `(1, 0)`: the destination ends as `0 2 0 / 0 4 0`. -/
theorem put_exact_effect_witness :
    (∃ σ', basic_bitmap.put ⟨some 0, 3, 2⟩ [[0, 0, 0, 0, 0, 0], [1, 2, 3, 4]] 1 0 ⟨some 1, 2, 2⟩
        = some σ' ∧
      (∀ j : Int, 0 ≤ j → j < 2 →
        ∃ c, basic_bitmap.get ⟨some 0, 3, 2⟩ σ' (1 + (0 + j) * 3) = some c ∧
          basic_bitmap.get ⟨some 1, 2, 2⟩ [[0, 0, 0, 0, 0, 0], [1, 2, 3, 4]]
            ((2 - 1) + j * 2) = some c) ∧
      (∀ cx cy : Int, 0 ≤ cx → cx < 3 → 0 ≤ cy → cy < 2 →
        ¬ (cx = 1 ∧ 0 ≤ cy ∧ cy < 0 + 2) →
        basic_bitmap.get ⟨some 0, 3, 2⟩ σ' (cx + cy * 3)
          = basic_bitmap.get ⟨some 0, 3, 2⟩ [[0, 0, 0, 0, 0, 0], [1, 2, 3, 4]]
            (cx + cy * 3))) ∧
    basic_bitmap.put ⟨some 0, 3, 2⟩ [[0, 0, 0, 0, 0, 0], [1, 2, 3, 4]] 1 0 ⟨some 1, 2, 2⟩
      = some [[0, 2, 0, 0, 4, 0], [1, 2, 3, 4]] :=
  ⟨put_exact_effect [[0, 0, 0, 0, 0, 0], [1, 2, 3, 4]] ⟨some 0, 3, 2⟩ ⟨some 1, 2, 2⟩ 1 0
    (by decide) (by decide) (by decide) (by decide) (by decide) (by decide) (by decide),
    by decide⟩

end image
